import Mathlib

/-!
# Gradient accumulation, merge and lowering of `learner.hpp`

A shallow embedding of `TriangularEvaluatorGradient` (`incParam`, `operator +=`),
of the macro `FOO` and of `lowerDimension`, in the sequential model:
`double` is read as an exact rational, an atomic cell as a plain cell, and every
loop as a left fold over the list of the values its counter takes.
-/

namespace Learner

/-! ## Data model -/

/-- The type `std::array<double, 2>`: component 0 and component 1. -/
abbrev Vec2 := ℚ × ℚ

/-- Modelled from the spec: `operator +=` on `std::array<T, 2>`, declared in a header
that is not part of this file; the spec's "element-wise add". -/
def arrayAddAssign (lhs rhs : Vec2) : Vec2 := (lhs.1 + rhs.1, lhs.2 + rhs.2)

/-- Modelled from the spec: the slot offset of `TriangularArray::at(i, j)`, whose class is
declared outside this file; the spec's "one-dimensional array sized n(n+1)/2 per square
with an accessor that canonicalizes (i, j) to (min, max) before computing the offset". -/
def triIndex (i j : Nat) : Nat := max i j * (max i j + 1) / 2 + min i j

/-- Modelled from the spec: `TriangularArray<std::array<double, 2>, int, fe_end, fe_end>`,
the one-dimensional slot array behind the triangular accessor. -/
abbrev TriangularArray := Nat → Vec2

/-- Modelled from the spec: number of slots of a triangular array over `fe_end` features,
the spec's "sized n(n+1)/2". -/
def TriangularArray.size (fe_end : Nat) : Nat := fe_end * (fe_end + 1) / 2

/-- Modelled from the spec: the accessor `TriangularArray::at(i, j)`. -/
def TriangularArray.at_ (t : TriangularArray) (i j : Nat) : Vec2 := t (triIndex i j)

/-- The two sides, `Black` and `White`. -/
inductive Color where
  | Black
  | White
deriving DecidableEq

/-- What `incParam` reads of a `Position`: `kingSquare(c)`, `cplist0()`, `cplist1()`
and `nlist()`. -/
structure Position where
  kingSquare : Color → Nat
  cplist0 : Nat → Nat
  cplist1 : Nat → Nat
  nlist : Nat

/-- The struct `TriangularEvaluatorGradient`: `kpp_grad[sq]` is a triangular array,
`kkp_grad[sq0][sq1][i]` a gradient vector. -/
@[ext]
structure TriangularEvaluatorGradient where
  kpp_grad : Nat → TriangularArray
  kkp_grad : Nat → Nat → Nat → Vec2

/-- Store of the slot `kpp_grad[sq].at(i, j) = v`. -/
def TriangularEvaluatorGradient.setKpp (g : TriangularEvaluatorGradient)
    (sq i j : Nat) (v : Vec2) : TriangularEvaluatorGradient :=
  { g with kpp_grad :=
      Function.update g.kpp_grad sq (Function.update (g.kpp_grad sq) (triIndex i j) v) }

/-- Store of the raw slot `n` of `kpp_grad[sq]` (writing through an iterator). -/
def TriangularEvaluatorGradient.setKppSlot (g : TriangularEvaluatorGradient)
    (sq n : Nat) (v : Vec2) : TriangularEvaluatorGradient :=
  { g with kpp_grad := Function.update g.kpp_grad sq (Function.update (g.kpp_grad sq) n v) }

/-- Store of the entry `kkp_grad[sq0][sq1][i] = v`. -/
def TriangularEvaluatorGradient.setKkp (g : TriangularEvaluatorGradient)
    (sq0 sq1 i : Nat) (v : Vec2) : TriangularEvaluatorGradient :=
  { g with kkp_grad := Function.update g.kkp_grad sq0 (Function.update (g.kkp_grad sq0) sq1
      (Function.update (g.kkp_grad sq0 sq1) i v)) }

/-- The values of a loop counter running over `lo, lo + 1, ..., hi - 1`. -/
def loopRange (lo hi : Nat) : List Nat := List.range' lo (hi - lo)

/-! ## `TriangularEvaluatorGradient::incParam` and `clear` -/

/-- The body of the inner loop of `incParam`, for one pair of list positions:
`kpp_grad[sq_bk].at(k0, l0) += f`, then `kpp_grad[inverse(sq_wk)].at(k1, l1)[0] -= f[0]`
and `kpp_grad[inverse(sq_wk)].at(k1, l1)[1] += f[1]`. -/
def incParamInner (inverse : Nat → Nat) (sq_bk sq_wk k0 k1 l0 l1 : Nat) (f : Vec2)
    (g : TriangularEvaluatorGradient) : TriangularEvaluatorGradient :=
  let g1 := g.setKpp sq_bk k0 l0 (arrayAddAssign ((g.kpp_grad sq_bk).at_ k0 l0) f)
  let e1 := (g1.kpp_grad (inverse sq_wk)).at_ k1 l1
  let g2 := g1.setKpp (inverse sq_wk) k1 l1 (e1.1 - f.1, e1.2)
  let e2 := (g2.kpp_grad (inverse sq_wk)).at_ k1 l1
  g2.setKpp (inverse sq_wk) k1 l1 (e2.1, e2.2 + f.2)

/-- The body of the outer loop of `incParam` for list position `i`: the inner loop over
`j < i`, then `kkp_grad[sq_bk][sq_wk][k0] += f`. -/
def incParamOuter (inverse : Nat → Nat) (sq_bk sq_wk : Nat) (list0 list1 : Nat → Nat)
    (f : Vec2) (g : TriangularEvaluatorGradient) (i : Nat) : TriangularEvaluatorGradient :=
  let k0 := list0 i
  let k1 := list1 i
  let g1 := (List.range i).foldl
    (fun acc j => incParamInner inverse sq_bk sq_wk k0 k1 (list0 j) (list1 j) f acc) g
  g1.setKkp sq_bk sq_wk k0 (arrayAddAssign (g1.kkp_grad sq_bk sq_wk k0) f)

/-- The method `incParam(pos, dinc)`; `FVScale` and `inverse` are declared outside this
file and taken as parameters. Returns the store after the call. -/
def incParam (FVScale : ℚ) (inverse : Nat → Nat) (pos : Position) (dinc : Vec2)
    (g : TriangularEvaluatorGradient) : TriangularEvaluatorGradient :=
  let sq_bk := pos.kingSquare Color.Black
  let sq_wk := pos.kingSquare Color.White
  let list0 := pos.cplist0
  let list1 := pos.cplist1
  let f : Vec2 := (dinc.1 / FVScale, dinc.2 / FVScale)
  (List.range pos.nlist).foldl (incParamOuter inverse sq_bk sq_wk list0 list1 f) g

/-- The method `clear()`: `memset(this, 0, sizeof(*this))`, every entry `(0.0, 0.0)`. -/
def clear (_g : TriangularEvaluatorGradient) : TriangularEvaluatorGradient :=
  { kpp_grad := fun _ _ => (0, 0), kkp_grad := fun _ _ _ => (0, 0) }

/-! ## `atomicAdd`, `atomicSub` (one thread) -/

/-- The function `atomicAdd(x, diff)` run by one thread with no other writer: `old` is
loaded, `desired = old + diff`, the exchange succeeds; the result is the pair of the
cell's new content and the returned value. -/
def atomicAdd (x diff : ℚ) : ℚ × ℚ :=
  let old := x
  let desired := old + diff
  (desired, desired)

/-- The function `atomicSub(x, diff)`: `return atomicAdd(x, -diff)`. -/
def atomicSub (x diff : ℚ) : ℚ × ℚ := atomicAdd x (-diff)

/-! ## `operator +=` -/

/-- The triangular loop of `operator +=` for one square: `*lit += *rit` for every slot
from `std::begin` to `std::end` of `kpp_grad[sq]`. -/
def opAddAssignKppSq (fe_end : Nat) (rhs : TriangularEvaluatorGradient)
    (lhs : TriangularEvaluatorGradient) (sq : Nat) : TriangularEvaluatorGradient :=
  (List.range (TriangularArray.size fe_end)).foldl
    (fun acc n => acc.setKppSlot sq n (arrayAddAssign (acc.kpp_grad sq n) (rhs.kpp_grad sq n)))
    lhs

/-- The flat loop of `operator +=`: `*lit += *rit` from `&kkp_grad[0][0][0]` to the end of
the array, every element once in row-major order. -/
def opAddAssignKkp (SquareNum fe_end : Nat) (rhs : TriangularEvaluatorGradient)
    (lhs : TriangularEvaluatorGradient) : TriangularEvaluatorGradient :=
  (List.range SquareNum).foldl (fun acc0 sq0 =>
    (List.range SquareNum).foldl (fun acc1 sq1 =>
      (List.range fe_end).foldl (fun acc i =>
        acc.setKkp sq0 sq1 i (arrayAddAssign (acc.kkp_grad sq0 sq1 i) (rhs.kkp_grad sq0 sq1 i)))
        acc1) acc0) lhs

/-- The function `operator += (lhs, rhs)` on values: the contents of `lhs` after the call,
given the contents of both stores before it. `SQ11`, `SquareNum` and `fe_end` are declared
outside this file. -/
def opAddAssign (SQ11 SquareNum fe_end : Nat) (lhs rhs : TriangularEvaluatorGradient) :
    TriangularEvaluatorGradient :=
  opAddAssignKkp SquareNum fe_end rhs
    ((loopRange SQ11 SquareNum).foldl (opAddAssignKppSq fe_end rhs) lhs)

/-- A memory of gradient stores, addressed by reference. -/
abbrev Heap := Nat → TriangularEvaluatorGradient

/-- The function `operator += (lhs, rhs)` on references: only the store `lhs` refers to is
written, with the contents `opAddAssign` computes from both stores (also when `lhs` and
`rhs` refer to the same store, each element being read and written once). -/
def opAddAssignRef (SQ11 SquareNum fe_end : Nat) (lhs rhs : Nat) (h : Heap) : Heap :=
  Function.update h lhs (opAddAssign SQ11 SquareNum fe_end (h lhs) (h rhs))

/-! ## `lowerDimension` -/

/-- The value `std::numeric_limits<ptrdiff_t>::max()` (64-bit `ptrdiff_t`). -/
def ptrdiffMax : Int := 2 ^ 63 - 1

/-- What `lowerDimension` uses of `EvaluatorBase<std::array<std::atomic<double>, 2>>`:
`kpp c` is the weight pair `*oneArrayKPP(c)`, `kkp c` is `*oneArrayKKP(c)`, and
`kppIndices ksq i j` / `kkpIndices ksq0 ksq1 i` is the content of the buffer `indices`
after the call of that name. -/
structure EvaluatorBase where
  kpp : Int → Vec2
  kkp : Int → Vec2
  kppIndices : Nat → Nat → Nat → List Int
  kkpIndices : Nat → Nat → Nat → List Int

/-- The body of the loop of `FOO` after the sentinel test, for one identifier `index`:
two atomic operations on the weight pair `*oneArray(index)` or `*oneArray(-index)`. -/
def FOOBody (index : Int) (sum : Vec2) (oneArray : Int → Vec2) : Int → Vec2 :=
  if 0 ≤ index then
    let a1 := Function.update oneArray index
      ((atomicAdd (oneArray index).1 sum.1).1, (oneArray index).2)
    Function.update a1 index ((a1 index).1, (atomicAdd (a1 index).2 sum.2).1)
  else
    let a1 := Function.update oneArray (-index)
      ((atomicSub (oneArray (-index)).1 sum.1).1, (oneArray (-index)).2)
    Function.update a1 (-index) ((a1 (-index)).1, (atomicAdd (a1 (-index)).2 sum.2).1)

/-- The macro `FOO(indices, oneArray, sum)`: `for (auto index : indices)` over the whole
buffer, with `break` at the first `ptrdiffMax`. -/
def FOO : List Int → (Int → Vec2) → Vec2 → (Int → Vec2)
  | [], oneArray, _ => oneArray
  | index :: rest, oneArray, sum =>
    if index = ptrdiffMax then oneArray else FOO rest (FOOBody index sum oneArray) sum

/-- The KPP block of `lowerDimension`: `ksq` from `SQ11` below `SquareNum`, `i` below
`fe_end`, `j <= i`. -/
def lowerDimensionKPP (SQ11 SquareNum fe_end : Nat) (base : EvaluatorBase)
    (grad : TriangularEvaluatorGradient) : Int → Vec2 :=
  (loopRange SQ11 SquareNum).foldl (fun a0 ksq =>
    (List.range fe_end).foldl (fun a1 i =>
      (List.range (i + 1)).foldl (fun a j =>
        FOO (base.kppIndices ksq i j) a ((grad.kpp_grad ksq).at_ i j)) a1) a0) base.kpp

/-- The KKP block of `lowerDimension`: `ksq0` and `ksq1` from `SQ11` below `SquareNum`,
`i` below `fe_end`. -/
def lowerDimensionKKP (SQ11 SquareNum fe_end : Nat) (base : EvaluatorBase)
    (grad : TriangularEvaluatorGradient) : Int → Vec2 :=
  (loopRange SQ11 SquareNum).foldl (fun a0 ksq0 =>
    (loopRange SQ11 SquareNum).foldl (fun a1 ksq1 =>
      (List.range fe_end).foldl (fun a i =>
        FOO (base.kkpIndices ksq0 ksq1 i) a (grad.kkp_grad ksq0 ksq1 i)) a1) a0) base.kkp

/-- The function `lowerDimension(base, grad)`: the parameter store after the pass. -/
def lowerDimension (SQ11 SquareNum fe_end : Nat) (base : EvaluatorBase)
    (grad : TriangularEvaluatorGradient) : EvaluatorBase :=
  { base with
    kpp := lowerDimensionKPP SQ11 SquareNum fe_end base grad
    kkp := lowerDimensionKKP SQ11 SquareNum fe_end base grad }

/-! ## Auxiliary notions used to state the properties -/

/-- Entry-wise sum of two stores. -/
instance : Add TriangularEvaluatorGradient :=
  ⟨fun a b => ⟨a.kpp_grad + b.kpp_grad, a.kkp_grad + b.kkp_grad⟩⟩

/-- The store with every entry `(0, 0)`. -/
instance : Zero TriangularEvaluatorGradient := ⟨⟨0, 0⟩⟩

/-- Stores form a commutative monoid under the entry-wise sum. -/
instance : AddCommMonoid TriangularEvaluatorGradient where
  add_assoc a b c := by
    ext1
    · exact add_assoc a.kpp_grad b.kpp_grad c.kpp_grad
    · exact add_assoc a.kkp_grad b.kkp_grad c.kkp_grad
  zero_add a := by
    ext1
    · exact zero_add a.kpp_grad
    · exact zero_add a.kkp_grad
  add_zero a := by
    ext1
    · exact add_zero a.kpp_grad
    · exact add_zero a.kkp_grad
  add_comm a b := by
    ext1
    · exact add_comm a.kpp_grad b.kpp_grad
    · exact add_comm a.kkp_grad b.kkp_grad
  nsmul := nsmulRec

/-- The store whose only nonzero entry is `v` in slot `n` of `kpp_grad[sq]`. -/
def kppSingle (sq n : Nat) (v : Vec2) : TriangularEvaluatorGradient :=
  ⟨Pi.single sq (Pi.single n v), 0⟩

/-- The store whose only nonzero entry is `v` at `kkp_grad[sq0][sq1][i]`. -/
def kkpSingle (sq0 sq1 i : Nat) (v : Vec2) : TriangularEvaluatorGradient :=
  ⟨0, Pi.single sq0 (Pi.single sq1 (Pi.single i v))⟩

/-- What one `incParam` call adds to a store: for every pair of list positions `j < i` the
two triangular contributions, for every list position the flat one. -/
def incParamDelta (FVScale : ℚ) (inverse : Nat → Nat) (pos : Position) (dinc : Vec2) :
    TriangularEvaluatorGradient :=
  ∑ i ∈ Finset.range pos.nlist,
    ((∑ j ∈ Finset.range i,
      (kppSingle (pos.kingSquare Color.Black) (triIndex (pos.cplist0 i) (pos.cplist0 j))
          (dinc.1 / FVScale, dinc.2 / FVScale)
        + kppSingle (inverse (pos.kingSquare Color.White))
          (triIndex (pos.cplist1 i) (pos.cplist1 j)) (-(dinc.1 / FVScale), dinc.2 / FVScale)))
      + kkpSingle (pos.kingSquare Color.Black) (pos.kingSquare Color.White) (pos.cplist0 i)
          (dinc.1 / FVScale, dinc.2 / FVScale))

/-- The part of a store that `operator +=` reads: the entries of `r` at squares from
`SQ11` below `SquareNum` and slots below the array size (triangular tables), and at indices
inside the bounds of `kkp_grad`; `(0, 0)` elsewhere. -/
def inRangePart (SQ11 SquareNum fe_end : Nat) (r : TriangularEvaluatorGradient) :
    TriangularEvaluatorGradient :=
  { kpp_grad := fun s m =>
      if SQ11 ≤ s ∧ s < SquareNum ∧ m < TriangularArray.size fe_end then r.kpp_grad s m else 0
    kkp_grad := fun a b i =>
      if a < SquareNum ∧ b < SquareNum ∧ i < fe_end then r.kkp_grad a b i else 0 }

/-- The position `pos` with its feature list reordered by `σ`: list position `i` of both
`list0` and `list1` holds what position `σ i` held. -/
def reorderList (σ : Equiv.Perm Nat) (pos : Position) : Position :=
  { pos with
    cplist0 := fun i => pos.cplist0 (σ i)
    cplist1 := fun i => pos.cplist1 (σ i) }

/-- The sign an identifier carries: `+1` for `0 <= index` (zero included), `-1` below. -/
def idSign (index : Int) : ℚ := if 0 ≤ index then 1 else -1

/-- The contribution of a gradient vector `g` through the identifier `index`:
`(sign(index) * g[0], g[1])`. -/
def signedSum (index : Int) (g : Vec2) : Vec2 := (idSign index * g.1, g.2)

/-- The identifiers of an index list that precede its first sentinel. -/
def beforeSentinel (indices : List Int) : List Int :=
  indices.takeWhile (fun idx => idx ≠ ptrdiffMax)

/-- What the index list of one raw entry with gradient vector `g` routes to the compressed
identifier `c`: the sum of `signedSum idx g` over the identifiers `idx` before the first
sentinel with `|idx| = c`. -/
def routed (indices : List Int) (g : Vec2) (c : Int) : Vec2 :=
  (((beforeSentinel indices).filter (fun idx => |idx| = c)).map
    (fun idx => signedSum idx g)).sum

/-! ## Sample data -/

/-- A sample mirror transform on 81 squares, `sq ↦ 80 - sq`. -/
def sampleInverse (sq : Nat) : Nat := 80 - sq

/-- A sample position: kings on squares 10 and 20, two list entries, `list0 = [5, 7]` and
`list1 = [6, 9]`. -/
def samplePosition : Position :=
  { kingSquare := fun c => match c with
      | Color.Black => 10
      | Color.White => 20
    cplist0 := fun i => if i = 0 then 5 else 7
    cplist1 := fun i => if i = 0 then 6 else 9
    nlist := 2 }

/-- A sample symmetric position: kings on squares 44 and 36 (`sampleInverse 36 = 44`),
`list0 = [5, 7]` and `list1 = [7, 5]`. -/
def symmetricPosition : Position :=
  { kingSquare := fun c => match c with
      | Color.Black => 44
      | Color.White => 36
    cplist0 := fun i => if i = 0 then 5 else 7
    cplist1 := fun i => if i = 0 then 7 else 5
    nlist := 2 }

/-- A sample position whose two list entries carry the same feature in `list0`. -/
def repeatedFeaturePosition : Position :=
  { kingSquare := fun c => match c with
      | Color.Black => 10
      | Color.White => 20
    cplist0 := fun _ => 5
    cplist1 := fun i => if i = 0 then 6 else 9
    nlist := 2 }

/-- The sample position cut to its first list entry: kings on squares 10 and 20,
`list0 = [5]`, `list1 = [6]`. -/
def singleEntryPosition : Position := { samplePosition with nlist := 1 }

/-! ## Sequences of `incParam` calls -/

/-- A sequence of `incParam(pos, dinc)` calls run in order on one store. -/
def accumulate (FVScale : ℚ) (inverse : Nat → Nat) (calls : List (Position × Vec2))
    (g : TriangularEvaluatorGradient) : TriangularEvaluatorGradient :=
  calls.foldl (fun s c => incParam FVScale inverse c.1 c.2 s) g

/-- The position indexes the arrays of the store inside their bounds: the squares
`sq_bk` and `inverse(sq_wk)` are squares from `SQ11` below `SquareNum`, `sq_wk` is below
`SquareNum`, and the features of both lists are below `fe_end`. -/
def Position.inBounds (SQ11 SquareNum fe_end : Nat) (inverse : Nat → Nat) (pos : Position) :
    Prop :=
  SQ11 ≤ pos.kingSquare Color.Black ∧ pos.kingSquare Color.Black < SquareNum
  ∧ SQ11 ≤ inverse (pos.kingSquare Color.White)
  ∧ inverse (pos.kingSquare Color.White) < SquareNum
  ∧ pos.kingSquare Color.White < SquareNum
  ∧ ∀ i, i < pos.nlist → pos.cplist0 i < fe_end ∧ pos.cplist1 i < fe_end

/-! ## `atomicAdd` under interleaving -/

/-- Where a thread stands in `atomicAdd(x, diff)`: before `x.load`, at the
`compare_exchange_weak(old, desired)` of the loop condition with its locals `old` and
`desired`, or returned with the value `desired`. -/
inductive ThreadState where
  | start
  | loop (old desired : ℚ)
  | done (ret : ℚ)
deriving DecidableEq

/-- Whether the thread has returned. -/
def ThreadState.isDone : ThreadState → Bool
  | ThreadState.done _ => true
  | _ => false

/-- The shared cell `x` and the state of every thread calling `atomicAdd` on it. -/
structure AtomicState where
  x : ℚ
  threads : Nat → ThreadState

/-- One atomic step of thread `t` in `atomicAdd(x, diff)`. At `start`: `old = x.load()`,
`desired = old + diff`. In the loop: `compare_exchange_weak(old, desired)` stores
`desired` and the thread returns it when the cell holds `old` and the exchange does not
fail spuriously; otherwise the exchange reloads `old` from the cell and the loop body sets
`desired = old + diff`. A returned thread does nothing. -/
def atomicAddStep (diff : ℚ) (s : AtomicState) (t : Nat) (spurious : Bool) : AtomicState :=
  match s.threads t with
  | ThreadState.start =>
    { s with threads := Function.update s.threads t (ThreadState.loop s.x (s.x + diff)) }
  | ThreadState.loop old desired =>
    if s.x = old ∧ spurious = false then
      { x := desired, threads := Function.update s.threads t (ThreadState.done desired) }
    else
      { s with threads := Function.update s.threads t (ThreadState.loop s.x (s.x + diff)) }
  | ThreadState.done _ => s

/-- A run of `N` threads under a schedule: each event names the thread that takes the next
atomic step and whether a weak exchange at that step fails spuriously; events naming no
thread below `N` are skipped. -/
def atomicAddRun (diff : ℚ) (N : Nat) (s : AtomicState) (sched : List (Nat × Bool)) :
    AtomicState :=
  sched.foldl (fun st e => if e.1 < N then atomicAddStep diff st e.1 e.2 else st) s

/-- The cell holding `v` with every thread about to call `atomicAdd`. -/
def atomicInit (v : ℚ) : AtomicState := { x := v, threads := fun _ => ThreadState.start }

/-- The schedule that lets the threads `0, ..., n - 1` run one after the other, two steps
each, with no spurious failure. -/
def sequentialSchedule (n : Nat) : List (Nat × Bool) :=
  (List.range n).flatMap (fun t => [(t, false), (t, false)])

/-- The invariant of a single thread running `atomicAdd(x, diff)` alone on a cell that held
`v`. -/
def SingleInv (v diff : ℚ) (s : AtomicState) : Prop :=
  match s.threads 0 with
  | ThreadState.start => s.x = v
  | ThreadState.loop old desired => s.x = v ∧ old = v ∧ desired = v + diff
  | ThreadState.done ret => s.x = v + diff ∧ ret = v + diff

/-! ## `atomicAdd` on a cell whose addition rounds -/

/-- One atomic step of thread `t` in `atomicAdd(x, diff)` where `old + diff` is the sum
`add old diff` of the cell's type (for `double`, the rounded sum). At `start`:
`old = x.load()`, `desired = old + diff`. In the loop: `compare_exchange_weak(old, desired)`
stores `desired` and the thread returns it when the cell holds `old` and the exchange does
not fail spuriously; otherwise the exchange reloads `old` from the cell and the loop body
sets `desired = old + diff`. A returned thread does nothing. -/
def atomicAddStepWith (add : ℚ → ℚ → ℚ) (diff : ℚ) (s : AtomicState) (t : Nat)
    (spurious : Bool) : AtomicState :=
  match s.threads t with
  | ThreadState.start =>
    { s with threads := Function.update s.threads t (ThreadState.loop s.x (add s.x diff)) }
  | ThreadState.loop old desired =>
    if s.x = old ∧ spurious = false then
      { x := desired, threads := Function.update s.threads t (ThreadState.done desired) }
    else
      { s with threads := Function.update s.threads t (ThreadState.loop s.x (add s.x diff)) }
  | ThreadState.done _ => s

/-- A run of `N` threads under a schedule, on a cell whose addition is `add`: each event
names the thread that takes the next atomic step and whether a weak exchange at that step
fails spuriously; events naming no thread below `N` are skipped. -/
def atomicAddRunWith (add : ℚ → ℚ → ℚ) (diff : ℚ) (N : Nat) (s : AtomicState)
    (sched : List (Nat × Bool)) : AtomicState :=
  sched.foldl (fun st e => if e.1 < N then atomicAddStepWith add diff st e.1 e.2 else st) s

/-- The number of threads below `N` that have returned. -/
def doneCount (N : Nat) (s : AtomicState) : Nat :=
  ∑ t ∈ Finset.range N, if (s.threads t).isDone then 1 else 0

/-- The invariant of `N` threads running `atomicAdd(x, diff)` on a cell that held `v` and
adds with `add`: a thread in the loop has `desired = old + diff`, and the cell holds `v`
with `diff` added once for every thread that has returned. -/
def AtomicInvWith (add : ℚ → ℚ → ℚ) (v diff : ℚ) (N : Nat) (s : AtomicState) : Prop :=
  (∀ t old desired, s.threads t = ThreadState.loop old desired → desired = add old diff)
  ∧ s.x = (fun c => add c diff)^[doneCount N s] v

/-! ## Addition of `double` -/

/-- The number of binary digits of `n`, by halving; `fuel` bounds the number of halvings
and `bitLength n n` is the number of digits of `n`. -/
def bitLength : Nat → Nat → Nat
  | 0, _ => 0
  | fuel + 1, n => if n = 0 then 0 else bitLength fuel (n / 2) + 1

/-- Rounding of the positive rational `n / d` to binary64, round to nearest, ties to even:
the result is `m * 2 ^ e` with a significand `m` of at most 53 binary digits and an
exponent `e` not below `-1074` (subnormal range); overflow is not represented. -/
def roundDoubleCore (n d : Nat) : Nat × Int :=
  let k : Int := (bitLength n n : Int) - (bitLength d d : Int)
  let lead : Int :=
    if (if 0 ≤ k then d * 2 ^ k.toNat ≤ n else d ≤ n * 2 ^ (-k).toNat) then k else k - 1
  let e : Int := max (lead - 52) (-1074)
  let num : Nat := if e ≤ 0 then n * 2 ^ (-e).toNat else n
  let den : Nat := if e ≤ 0 then d else d * 2 ^ e.toNat
  let m0 : Nat := num / den
  let r : Nat := num % den
  let m : Nat := if 2 * r < den then m0 else if den < 2 * r then m0 + 1 else m0 + m0 % 2
  (m, e)

/-- The `double` nearest to the rational `q` (round to nearest, ties to even), as a
rational; finite values only. -/
def roundDouble (q : ℚ) : ℚ :=
  if q = 0 then 0
  else if 0 < q then
    ((roundDoubleCore q.num.natAbs q.den).1 : ℚ) * 2 ^ (roundDoubleCore q.num.natAbs q.den).2
  else
    -(((roundDoubleCore q.num.natAbs q.den).1 : ℚ) * 2 ^ (roundDoubleCore q.num.natAbs q.den).2)

/-- The sum `a + b` of two `double` values: the exact sum, rounded. -/
def doubleAdd (a b : ℚ) : ℚ := roundDouble (a + b)

/-! ## Folds of additive steps -/

theorem foldl_add_sum {M ι : Type} [AddCommMonoid M] (step : M → ι → M) (c : ι → M)
    (h : ∀ a i, step a i = a + c i) (l : List ι) (a : M) :
    l.foldl step a = a + (l.map c).sum := by
  induction l generalizing a with
  | nil => simp
  | cons x xs ih => rw [List.foldl_cons, ih, h, List.map_cons, List.sum_cons, add_assoc]

theorem sum_map_range {M : Type} [AddCommMonoid M] (c : Nat → M) (n : Nat) :
    ((List.range n).map c).sum = ∑ i ∈ Finset.range n, c i := by
  induction n with
  | zero => simp
  | succ n ih =>
    rw [List.range_succ, List.map_append, List.sum_append, ih, Finset.sum_range_succ]
    simp

theorem sum_map_loopRange {M : Type} [AddCommMonoid M] (c : Nat → M) (lo hi : Nat) :
    ((loopRange lo hi).map c).sum = ∑ i ∈ Finset.Ico lo hi, c i := by
  unfold loopRange
  rw [Finset.sum_Ico_eq_sum_range, ← sum_map_range, List.range'_eq_map_range, List.map_map]
  rfl

theorem foldl_range_add {M : Type} [AddCommMonoid M] (step : M → Nat → M) (c : Nat → M)
    (h : ∀ a i, step a i = a + c i) (n : Nat) (a : M) :
    (List.range n).foldl step a = a + ∑ i ∈ Finset.range n, c i := by
  rw [foldl_add_sum step c h, sum_map_range]

theorem foldl_loopRange_add {M : Type} [AddCommMonoid M] (step : M → Nat → M) (c : Nat → M)
    (h : ∀ a i, step a i = a + c i) (lo hi : Nat) (a : M) :
    (loopRange lo hi).foldl step a = a + ∑ i ∈ Finset.Ico lo hi, c i := by
  rw [foldl_add_sum step c h, sum_map_loopRange]

/-! ## The lowering step `FOO` -/

theorem FOOBody_apply (index : Int) (g : Vec2) (a : Int → Vec2) (c : Int) :
    FOOBody index g a c = if |index| = c then a c + signedSum index g else a c := by
  unfold FOOBody signedSum idSign atomicSub atomicAdd
  by_cases h : 0 ≤ index
  · rw [abs_of_nonneg h]
    by_cases hc : index = c
    · subst hc; simp [h, Prod.ext_iff]
    · have hc2 : c ≠ index := fun e => hc e.symm
      simp [h, hc, Function.update_noteq hc2]
  · have hneg : index < 0 := lt_of_not_ge h
    rw [abs_of_neg hneg]
    by_cases hc : -index = c
    · subst hc; simp [h, sub_eq_add_neg, Prod.ext_iff]
    · have hc2 : c ≠ -index := fun e => hc e.symm
      simp [h, hc, Function.update_noteq hc2]

theorem FOO_eq_foldl (indices : List Int) (a : Int → Vec2) (g : Vec2) :
    FOO indices a g = (beforeSentinel indices).foldl (fun acc idx => FOOBody idx g acc) a := by
  induction indices generalizing a with
  | nil => rfl
  | cons x xs ih =>
    by_cases hx : x = ptrdiffMax
    · simp [FOO, beforeSentinel, hx]
    · simp [FOO, beforeSentinel, hx]
      simpa [beforeSentinel] using ih _

theorem beforeSentinel_append_sentinel (pre post : List Int) (hpre : ptrdiffMax ∉ pre) :
    beforeSentinel (pre ++ ptrdiffMax :: post) = pre := by
  induction pre with
  | nil => simp [beforeSentinel]
  | cons x xs ih =>
    have hx : x ≠ ptrdiffMax := fun e => hpre (by simp [e])
    have hxs : ptrdiffMax ∉ xs := fun e => hpre (List.mem_cons_of_mem _ e)
    have := ih hxs
    simp only [beforeSentinel] at this ⊢
    simp only [List.cons_append, List.takeWhile_cons, hx, ne_eq, not_false_eq_true, decide_True,
      if_true, this]

theorem beforeSentinel_of_not_mem (indices : List Int) (h : ptrdiffMax ∉ indices) :
    beforeSentinel indices = indices := by
  unfold beforeSentinel
  rw [List.takeWhile_eq_self_iff]
  intro x hx
  simpa using fun e : x = ptrdiffMax => h (e ▸ hx)

theorem FOO_apply (indices : List Int) (a : Int → Vec2) (g : Vec2) (c : Int) :
    FOO indices a g c = a c + routed indices g c := by
  rw [FOO_eq_foldl]
  unfold routed
  generalize beforeSentinel indices = l
  induction l generalizing a with
  | nil => simp
  | cons x xs ih =>
    rw [List.foldl_cons, ih, FOOBody_apply]
    by_cases hx : |x| = c
    · simp [hx, List.filter_cons, add_assoc]
    · simp [hx, List.filter_cons]

theorem FOO_eq_add (indices : List Int) (a : Int → Vec2) (g : Vec2) :
    FOO indices a g = a + routed indices g := by
  funext c; simp [FOO_apply]

/-! ## `lowerDimension` -/

theorem lowerDimensionKPP_eq (SQ11 SquareNum fe_end : Nat) (base : EvaluatorBase)
    (grad : TriangularEvaluatorGradient) :
    lowerDimensionKPP SQ11 SquareNum fe_end base grad = base.kpp +
      ∑ ksq ∈ Finset.Ico SQ11 SquareNum, ∑ i ∈ Finset.range fe_end, ∑ j ∈ Finset.range (i + 1),
        routed (base.kppIndices ksq i j) ((grad.kpp_grad ksq).at_ i j) := by
  unfold lowerDimensionKPP
  apply foldl_loopRange_add
  intro a0 ksq
  apply foldl_range_add
  intro a1 i
  apply foldl_range_add
  intro a j
  exact FOO_eq_add _ _ _

theorem lowerDimensionKKP_eq (SQ11 SquareNum fe_end : Nat) (base : EvaluatorBase)
    (grad : TriangularEvaluatorGradient) :
    lowerDimensionKKP SQ11 SquareNum fe_end base grad = base.kkp +
      ∑ ksq0 ∈ Finset.Ico SQ11 SquareNum, ∑ ksq1 ∈ Finset.Ico SQ11 SquareNum,
        ∑ i ∈ Finset.range fe_end,
          routed (base.kkpIndices ksq0 ksq1 i) (grad.kkp_grad ksq0 ksq1 i) := by
  unfold lowerDimensionKKP
  apply foldl_loopRange_add
  intro a0 ksq0
  apply foldl_loopRange_add
  intro a1 ksq1
  apply foldl_range_add
  intro a i
  exact FOO_eq_add _ _ _

/-- C1 (lowering conservation). After `lowerDimension` the KPP weight pair at every
identifier `c` is its initial value plus the sum, over every square `ksq` of the loop, every
`i < fe_end`, every `j <= i` and every identifier `idx` that `kppIndices ksq i j` lists before
its first sentinel with `|idx| = c`, of `(sign(idx) * g[0], g[1])` for
`g = kpp_grad[ksq].at(i, j)`, where `sign` is `+1` on `0 <= idx` and `-1` below; and the KKP
weight pair likewise over every `(ksq0, ksq1, i)`. -/
theorem C1_lowering_conservation (SQ11 SquareNum fe_end : Nat) (base : EvaluatorBase)
    (grad : TriangularEvaluatorGradient) (c : Int) :
    (lowerDimension SQ11 SquareNum fe_end base grad).kpp c = base.kpp c +
      ∑ ksq ∈ Finset.Ico SQ11 SquareNum, ∑ i ∈ Finset.range fe_end, ∑ j ∈ Finset.range (i + 1),
        routed (base.kppIndices ksq i j) ((grad.kpp_grad ksq).at_ i j) c
    ∧ (lowerDimension SQ11 SquareNum fe_end base grad).kkp c = base.kkp c +
      ∑ ksq0 ∈ Finset.Ico SQ11 SquareNum, ∑ ksq1 ∈ Finset.Ico SQ11 SquareNum,
        ∑ i ∈ Finset.range fe_end,
          routed (base.kkpIndices ksq0 ksq1 i) (grad.kkp_grad ksq0 ksq1 i) c := by
  constructor
  · show lowerDimensionKPP SQ11 SquareNum fe_end base grad c = _
    rw [lowerDimensionKPP_eq]
    simp only [Pi.add_apply, Finset.sum_apply]
  · show lowerDimensionKKP SQ11 SquareNum fe_end base grad c = _
    rw [lowerDimensionKKP_eq]
    simp only [Pi.add_apply, Finset.sum_apply]

/-- C2 (lowering sign rule). One pass of the body of `FOO` for an identifier `index` and a
gradient vector `g`: for `0 <= index` (zero included) the weight pair at `index` gets `g[0]`
added to component 0 and `g[1]` to component 1; for `index < 0` the weight pair at `-index`
gets `g[0]` subtracted from component 0 and `g[1]` added to component 1; every other
weight pair is unchanged. -/
theorem C2_lowering_sign_rule (index : Int) (g : Vec2) (oneArray : Int → Vec2) :
    (0 ≤ index → FOOBody index g oneArray index
        = ((oneArray index).1 + g.1, (oneArray index).2 + g.2))
    ∧ (index < 0 → FOOBody index g oneArray (-index)
        = ((oneArray (-index)).1 - g.1, (oneArray (-index)).2 + g.2))
    ∧ (∀ c : Int, c ≠ |index| → FOOBody index g oneArray c = oneArray c) := by
  refine ⟨fun h => ?_, fun h => ?_, fun c hc => ?_⟩
  · rw [FOOBody_apply, if_pos (abs_of_nonneg h)]
    simp [signedSum, idSign, h, Prod.ext_iff]
  · rw [FOOBody_apply, if_pos (abs_of_neg h)]
    simp [signedSum, idSign, not_le.mpr h, Prod.ext_iff, sub_eq_add_neg]
  · rw [FOOBody_apply, if_neg (fun e => hc e.symm)]

/-- Witness of C2 at the identifiers `3` and `-3` with `g = (1, 2)` on the weights
`c ↦ (c, 10)`. -/
theorem C2_lowering_sign_rule_witness :
    FOOBody 3 (1, 2) (fun c => ((c : ℚ), 10)) 3 = (3 + 1, 10 + 2)
    ∧ FOOBody (-3) (1, 2) (fun c => ((c : ℚ), 10)) 3 = ((3 : ℚ) - 1, 10 + 2)
    ∧ FOOBody (-3) (1, 2) (fun c => ((c : ℚ), 10)) 4 = (4, 10) := by
  refine ⟨?_, ?_, ?_⟩
  · simpa using (C2_lowering_sign_rule 3 (1, 2) (fun c => ((c : ℚ), 10))).1 (by decide)
  · simpa using (C2_lowering_sign_rule (-3) (1, 2) (fun c => ((c : ℚ), 10))).2.1 (by decide)
  · simpa using (C2_lowering_sign_rule (-3) (1, 2) (fun c => ((c : ℚ), 10))).2.2 4 (by decide)

/-- C9 (sentinel stop). `FOO` applies, in order, exactly the identifiers before the first
`ptrdiffMax` of the list: for a list `pre ++ ptrdiffMax :: post` with no sentinel in `pre`
the result is the body folded over `pre`, whatever `post` holds; and a list that starts
with the sentinel changes no weight pair. -/
theorem C9_sentinel_stop (pre post : List Int) (g : Vec2) (oneArray : Int → Vec2)
    (hpre : ptrdiffMax ∉ pre) :
    FOO (pre ++ ptrdiffMax :: post) oneArray g
        = pre.foldl (fun acc idx => FOOBody idx g acc) oneArray
    ∧ FOO (ptrdiffMax :: post) oneArray g = oneArray := by
  constructor
  · rw [FOO_eq_foldl, beforeSentinel_append_sentinel pre post hpre]
  · simp [FOO]

/-- Witness of C9: the list `[4, -2, ptrdiffMax, 9, 4]` applies `4` and `-2` only. -/
theorem C9_sentinel_stop_witness :
    ptrdiffMax ∉ [4, -2]
    ∧ FOO ([4, -2] ++ ptrdiffMax :: [9, 4]) (fun _ => (0, 0)) (1, 2)
        = [4, -2].foldl (fun acc idx => FOOBody idx (1, 2) acc) (fun _ => (0, 0))
    ∧ FOO (ptrdiffMax :: [9, 4]) (fun _ => (0, 0)) (1, 2) = (fun _ => (0, 0)) :=
  ⟨by decide, C9_sentinel_stop [4, -2] [9, 4] (1, 2) (fun _ => (0, 0)) (by decide)⟩

/-- C10, as stated, fails: with `SQ11 = 0`, `SquareNum = 1`, `fe_end = 1` and index buffers
`[3, -5]` (KPP) and `[7, 7]` (KKP) that hold no sentinel, `lowerDimension` completes and
has applied every identifier of both buffers. -/
theorem C10_counterexample :
    ptrdiffMax ∉ [3, -5] ∧ ptrdiffMax ∉ [7, 7]
    ∧ (lowerDimension 0 1 1
        ⟨fun _ => (0, 0), fun _ => (0, 0), fun _ _ _ => [3, -5], fun _ _ _ => [7, 7]⟩
        ⟨fun _ _ => (1, 2), fun _ _ _ => (1, 2)⟩).kpp 3 = (1, 2)
    ∧ (lowerDimension 0 1 1
        ⟨fun _ => (0, 0), fun _ => (0, 0), fun _ _ _ => [3, -5], fun _ _ _ => [7, 7]⟩
        ⟨fun _ _ => (1, 2), fun _ _ _ => (1, 2)⟩).kpp 5 = (-1, 2)
    ∧ (lowerDimension 0 1 1
        ⟨fun _ => (0, 0), fun _ => (0, 0), fun _ _ _ => [3, -5], fun _ _ _ => [7, 7]⟩
        ⟨fun _ _ => (1, 2), fun _ _ _ => (1, 2)⟩).kkp 7 = (2, 4) := by
  refine ⟨by decide, by decide, ?_, ?_, ?_⟩
  · simp [lowerDimension, lowerDimensionKPP, loopRange, List.range_succ,
      FOO, ptrdiffMax, FOOBody, atomicAdd, atomicSub, TriangularArray.at_, Function.update]
  · simp [lowerDimension, lowerDimensionKPP, loopRange, List.range_succ,
      FOO, ptrdiffMax, FOOBody, atomicAdd, atomicSub, TriangularArray.at_, Function.update]
  · simp [lowerDimension, lowerDimensionKKP, loopRange, List.range_succ,
      FOO, ptrdiffMax, FOOBody, atomicAdd, atomicSub, Function.update]
    norm_num

/-- C10, amended. For an index list that holds no sentinel, `FOO` runs to the end of the
buffer and applies every identifier of the list by the sign rule; nothing aborts. -/
theorem C10_no_sentinel_applies_all (indices : List Int) (g : Vec2) (oneArray : Int → Vec2)
    (h : ptrdiffMax ∉ indices) :
    FOO indices oneArray g = indices.foldl (fun acc idx => FOOBody idx g acc) oneArray := by
  rw [FOO_eq_foldl, beforeSentinel_of_not_mem indices h]

/-- Witness of the amended C10 at the buffer `[3, -5]`. -/
theorem C10_no_sentinel_applies_all_witness :
    ptrdiffMax ∉ [3, -5]
    ∧ FOO [3, -5] (fun _ => (0, 0)) (1, 2)
        = [3, -5].foldl (fun acc idx => FOOBody idx (1, 2) acc) (fun _ => (0, 0)) :=
  ⟨by decide, C10_no_sentinel_applies_all [3, -5] (1, 2) (fun _ => (0, 0)) (by decide)⟩


/-! ## Stores as sums of single entries -/

theorem add_kpp_grad (a b : TriangularEvaluatorGradient) (s m : Nat) :
    (a + b).kpp_grad s m = a.kpp_grad s m + b.kpp_grad s m := rfl

theorem add_kkp_grad (a b : TriangularEvaluatorGradient) (s t i : Nat) :
    (a + b).kkp_grad s t i = a.kkp_grad s t i + b.kkp_grad s t i := rfl

theorem zero_kpp_grad (s m : Nat) : (0 : TriangularEvaluatorGradient).kpp_grad s m = 0 := rfl

theorem zero_kkp_grad (s t i : Nat) : (0 : TriangularEvaluatorGradient).kkp_grad s t i = 0 := rfl

theorem sum_kpp_grad {ι : Type} (S : Finset ι) (f : ι → TriangularEvaluatorGradient)
    (s m : Nat) : (∑ x ∈ S, f x).kpp_grad s m = ∑ x ∈ S, (f x).kpp_grad s m := by
  classical
  induction S using Finset.induction_on with
  | empty => simp [zero_kpp_grad]
  | insert hx ih => rw [Finset.sum_insert hx, Finset.sum_insert hx, add_kpp_grad, ih]

theorem sum_kkp_grad {ι : Type} (S : Finset ι) (f : ι → TriangularEvaluatorGradient)
    (s t i : Nat) : (∑ x ∈ S, f x).kkp_grad s t i = ∑ x ∈ S, (f x).kkp_grad s t i := by
  classical
  induction S using Finset.induction_on with
  | empty => simp [zero_kkp_grad]
  | insert hx ih => rw [Finset.sum_insert hx, Finset.sum_insert hx, add_kkp_grad, ih]

theorem kppSingle_kpp_grad (sq n : Nat) (v : Vec2) (s m : Nat) :
    (kppSingle sq n v).kpp_grad s m = if s = sq ∧ m = n then v else 0 := by
  unfold kppSingle
  by_cases hs : s = sq
  · subst hs
    by_cases hm : m = n
    · subst hm; simp
    · simp [hm]
  · simp [hs]

theorem kppSingle_kkp_grad (sq n : Nat) (v : Vec2) (s t i : Nat) :
    (kppSingle sq n v).kkp_grad s t i = 0 := rfl

theorem kkpSingle_kpp_grad (sq0 sq1 i : Nat) (v : Vec2) (s m : Nat) :
    (kkpSingle sq0 sq1 i v).kpp_grad s m = 0 := rfl

theorem kkpSingle_kkp_grad (sq0 sq1 i : Nat) (v : Vec2) (s t j : Nat) :
    (kkpSingle sq0 sq1 i v).kkp_grad s t j = if s = sq0 ∧ t = sq1 ∧ j = i then v else 0 := by
  unfold kkpSingle
  by_cases hs : s = sq0
  · subst hs
    by_cases ht : t = sq1
    · subst ht
      by_cases hj : j = i
      · subst hj; simp
      · simp [hj]
    · simp [ht]
  · simp [hs]

theorem setKppSlot_add (g : TriangularEvaluatorGradient) (sq n : Nat) (v : Vec2) :
    g.setKppSlot sq n (arrayAddAssign (g.kpp_grad sq n) v) = g + kppSingle sq n v := by
  ext1
  · funext s m
    rw [add_kpp_grad, kppSingle_kpp_grad]
    simp only [TriangularEvaluatorGradient.setKppSlot, arrayAddAssign]
    by_cases hs : s = sq
    · subst hs
      by_cases hm : m = n
      · subst hm; simp [Prod.ext_iff]
      · simp [hm, Function.update_noteq hm]
    · simp [hs, Function.update_noteq hs]
  · funext s t i
    rw [add_kkp_grad, kppSingle_kkp_grad, add_zero]
    rfl

theorem setKkp_add (g : TriangularEvaluatorGradient) (sq0 sq1 i : Nat) (v : Vec2) :
    g.setKkp sq0 sq1 i (arrayAddAssign (g.kkp_grad sq0 sq1 i) v) = g + kkpSingle sq0 sq1 i v := by
  ext1
  · funext s m
    rw [add_kpp_grad, kkpSingle_kpp_grad, add_zero]
    rfl
  · funext a b c
    rw [add_kkp_grad, kkpSingle_kkp_grad]
    simp only [TriangularEvaluatorGradient.setKkp, arrayAddAssign]
    by_cases ha : a = sq0
    · subst ha
      by_cases hb : b = sq1
      · subst hb
        by_cases hc : c = i
        · subst hc; simp [Prod.ext_iff]
        · simp [hc, Function.update_noteq hc]
      · simp [hb, Function.update_noteq hb]
    · simp [ha, Function.update_noteq ha]

/-! ## `incParam` adds `incParamDelta` -/

theorem incParamInner_add (inverse : Nat → Nat) (sq_bk sq_wk k0 k1 l0 l1 : Nat) (f : Vec2)
    (g : TriangularEvaluatorGradient) :
    incParamInner inverse sq_bk sq_wk k0 k1 l0 l1 f g =
      g + (kppSingle sq_bk (triIndex k0 l0) f
        + kppSingle (inverse sq_wk) (triIndex k1 l1) (-f.1, f.2)) := by
  have h := setKppSlot_add g sq_bk (triIndex k0 l0) f
  have h2 := setKppSlot_add (g + kppSingle sq_bk (triIndex k0 l0) f) (inverse sq_wk)
    (triIndex k1 l1) (-f.1, f.2)
  rw [← add_assoc, ← h2, ← h]
  ext1
  · funext s m
    simp only [incParamInner, TriangularEvaluatorGradient.setKpp,
      TriangularEvaluatorGradient.setKppSlot, TriangularArray.at_, arrayAddAssign]
    by_cases hs : s = inverse sq_wk
    · subst hs
      by_cases hm : m = triIndex k1 l1
      · subst hm; simp [Prod.ext_iff, sub_eq_add_neg]
      · simp [hm, Function.update_noteq hm]
    · simp [hs, Function.update_noteq hs]
  · simp [incParamInner, TriangularEvaluatorGradient.setKpp,
      TriangularEvaluatorGradient.setKppSlot]

theorem incParam_eq_add (FVScale : ℚ) (inverse : Nat → Nat) (pos : Position) (dinc : Vec2)
    (g : TriangularEvaluatorGradient) :
    incParam FVScale inverse pos dinc g = g + incParamDelta FVScale inverse pos dinc := by
  unfold incParam incParamDelta
  apply foldl_range_add
  intro a i
  unfold incParamOuter
  simp only
  rw [setKkp_add, ← add_assoc]
  congr 1
  apply foldl_range_add
  intro b j
  exact incParamInner_add _ _ _ _ _ _ _ _ _

theorem triIndex_comm (i j : Nat) : triIndex i j = triIndex j i := by
  unfold triIndex
  rw [max_comm, min_comm]

theorem incParam_two_kpp (FVScale : ℚ) (inverse : Nat → Nat) (pos : Position) (dinc : Vec2)
    (g : TriangularEvaluatorGradient) (hn : pos.nlist = 2) (s m : Nat) :
    (incParam FVScale inverse pos dinc g).kpp_grad s m = g.kpp_grad s m +
      ((if s = pos.kingSquare Color.Black ∧ m = triIndex (pos.cplist0 1) (pos.cplist0 0)
          then (dinc.1 / FVScale, dinc.2 / FVScale) else 0)
       + (if s = inverse (pos.kingSquare Color.White)
            ∧ m = triIndex (pos.cplist1 1) (pos.cplist1 0)
          then (-(dinc.1 / FVScale), dinc.2 / FVScale) else 0)) := by
  rw [incParam_eq_add, add_kpp_grad]
  unfold incParamDelta
  rw [hn]
  simp only [Finset.sum_range_succ, Finset.sum_range_zero, Finset.range_zero, Finset.sum_empty,
    zero_add, add_kpp_grad, kppSingle_kpp_grad, kkpSingle_kpp_grad, add_zero]

theorem incParam_two_kkp (FVScale : ℚ) (inverse : Nat → Nat) (pos : Position) (dinc : Vec2)
    (g : TriangularEvaluatorGradient) (hn : pos.nlist = 2) (s t i : Nat) :
    (incParam FVScale inverse pos dinc g).kkp_grad s t i = g.kkp_grad s t i +
      ((if s = pos.kingSquare Color.Black ∧ t = pos.kingSquare Color.White ∧ i = pos.cplist0 0
          then (dinc.1 / FVScale, dinc.2 / FVScale) else 0)
       + (if s = pos.kingSquare Color.Black ∧ t = pos.kingSquare Color.White ∧ i = pos.cplist0 1
          then (dinc.1 / FVScale, dinc.2 / FVScale) else 0)) := by
  rw [incParam_eq_add, add_kkp_grad]
  unfold incParamDelta
  rw [hn]
  simp only [Finset.sum_range_succ, Finset.sum_range_zero, Finset.range_zero, Finset.sum_empty,
    zero_add, add_kkp_grad, kppSingle_kkp_grad, kkpSingle_kkp_grad, add_zero]

/-- C4 (mirror sign rule). For a position with exactly two list entries and every delta
(zero or not), after one `incParam` on a cleared store the black-perspective entry
`B = kpp_grad[bk].at(list0[1], list0[0])` and the mirrored entry
`W = kpp_grad[inverse(wk)].at(list1[1], list1[0])` satisfy `W[0] = -B[0]` and
`W[1] = B[1]`. -/
theorem C4_mirror_sign_rule (FVScale : ℚ) (inverse : Nat → Nat) (pos : Position)
    (dinc : Vec2) (g : TriangularEvaluatorGradient) (hn : pos.nlist = 2) :
    (((incParam FVScale inverse pos dinc (clear g)).kpp_grad
        (inverse (pos.kingSquare Color.White))).at_ (pos.cplist1 1) (pos.cplist1 0)).1
      = -(((incParam FVScale inverse pos dinc (clear g)).kpp_grad
        (pos.kingSquare Color.Black)).at_ (pos.cplist0 1) (pos.cplist0 0)).1
    ∧ (((incParam FVScale inverse pos dinc (clear g)).kpp_grad
        (inverse (pos.kingSquare Color.White))).at_ (pos.cplist1 1) (pos.cplist1 0)).2
      = (((incParam FVScale inverse pos dinc (clear g)).kpp_grad
        (pos.kingSquare Color.Black)).at_ (pos.cplist0 1) (pos.cplist0 0)).2 := by
  unfold TriangularArray.at_
  rw [incParam_two_kpp FVScale inverse pos dinc _ hn, incParam_two_kpp FVScale inverse pos dinc _ hn]
  by_cases h : inverse (pos.kingSquare Color.White) = pos.kingSquare Color.Black
      ∧ triIndex (pos.cplist1 1) (pos.cplist1 0) = triIndex (pos.cplist0 1) (pos.cplist0 0)
  · obtain ⟨h1, h2⟩ := h
    simp [clear, h1, h2]
  · have h' : ¬ (pos.kingSquare Color.Black = inverse (pos.kingSquare Color.White)
        ∧ triIndex (pos.cplist0 1) (pos.cplist0 0) = triIndex (pos.cplist1 1) (pos.cplist1 0)) :=
      fun e => h ⟨e.1.symm, e.2.symm⟩
    simp [clear, h, h']

/-- Witness of C4 at `samplePosition` with `FVScale = 32` and delta `(1, 2)`. -/
theorem C4_mirror_sign_rule_witness :
    samplePosition.nlist = 2
    ∧ (((incParam 32 sampleInverse samplePosition (1, 2) (clear 0)).kpp_grad
        (sampleInverse (samplePosition.kingSquare Color.White))).at_
          (samplePosition.cplist1 1) (samplePosition.cplist1 0)).1
      = -(((incParam 32 sampleInverse samplePosition (1, 2) (clear 0)).kpp_grad
        (samplePosition.kingSquare Color.Black)).at_
          (samplePosition.cplist0 1) (samplePosition.cplist0 0)).1
    ∧ (((incParam 32 sampleInverse samplePosition (1, 2) (clear 0)).kpp_grad
        (sampleInverse (samplePosition.kingSquare Color.White))).at_
          (samplePosition.cplist1 1) (samplePosition.cplist1 0)).2
      = (((incParam 32 sampleInverse samplePosition (1, 2) (clear 0)).kpp_grad
        (samplePosition.kingSquare Color.Black)).at_
          (samplePosition.cplist0 1) (samplePosition.cplist0 0)).2 :=
  ⟨rfl, C4_mirror_sign_rule 32 sampleInverse samplePosition (1, 2) 0 rfl⟩

/-- C3, as stated, fails in three ways. With `FVScale = 32` the black-perspective entry of
`samplePosition` after one `incParam` with delta `(1, 2)` on a cleared store is
`(1/32, 1/16)`, not `(1, 2)`; with `FVScale = 1` the entry of `symmetricPosition`, where
the black and the mirrored contribution share one slot, is `(0, 4)`; and with `FVScale = 1`
the flat entry of `repeatedFeaturePosition`, whose two list entries name one feature, is
`(2, 4)`. -/
theorem C3_counterexample :
    (((incParam 32 sampleInverse samplePosition (1, 2) (clear 0)).kpp_grad 10).at_ 5 7
        = (1 / 32, 1 / 16)
      ∧ ((incParam 32 sampleInverse samplePosition (1, 2) (clear 0)).kpp_grad 10).at_ 5 7
        ≠ (1, 2))
    ∧ (((incParam 1 sampleInverse symmetricPosition (1, 2) (clear 0)).kpp_grad 44).at_ 5 7
        = (0, 4)
      ∧ ((incParam 1 sampleInverse symmetricPosition (1, 2) (clear 0)).kpp_grad 44).at_ 5 7
        ≠ (1, 2))
    ∧ ((incParam 1 sampleInverse repeatedFeaturePosition (1, 2) (clear 0)).kkp_grad 10 20 5
        = (2, 4)
      ∧ (incParam 1 sampleInverse repeatedFeaturePosition (1, 2) (clear 0)).kkp_grad 10 20 5
        ≠ (1, 2)) := by
  have h1 : ((incParam 32 sampleInverse samplePosition (1, 2) (clear 0)).kpp_grad 10).at_ 5 7
      = (1 / 32, 1 / 16) := by
    unfold TriangularArray.at_
    rw [incParam_two_kpp 32 sampleInverse samplePosition (1, 2) _ rfl]
    norm_num [clear, samplePosition, sampleInverse, triIndex, Prod.ext_iff]
  have h2 : ((incParam 1 sampleInverse symmetricPosition (1, 2) (clear 0)).kpp_grad 44).at_ 5 7
      = (0, 4) := by
    unfold TriangularArray.at_
    rw [incParam_two_kpp 1 sampleInverse symmetricPosition (1, 2) _ rfl]
    norm_num [clear, symmetricPosition, sampleInverse, triIndex, Prod.ext_iff]
  have h3 : (incParam 1 sampleInverse repeatedFeaturePosition (1, 2) (clear 0)).kkp_grad 10 20 5
      = (2, 4) := by
    rw [incParam_two_kkp 1 sampleInverse repeatedFeaturePosition (1, 2) _ rfl]
    norm_num [clear, repeatedFeaturePosition, Prod.ext_iff]
  refine ⟨⟨h1, ?_⟩, ⟨h2, ?_⟩, ⟨h3, ?_⟩⟩
  · rw [h1]; norm_num [Prod.ext_iff]
  · rw [h2]; norm_num [Prod.ext_iff]
  · rw [h3]; norm_num [Prod.ext_iff]

/-- C3, amended. For a position with king squares `(b, w)` and a two-entry feature list
whose black-perspective slot `(b, {list0[0], list0[1]})` and mirrored slot
`(inverse(w), {list1[0], list1[1]})` are different slots and whose two `list0` features
differ, one `incParam` with delta `(1, 2)` on a cleared store leaves the triangular entry at
`b` for the pair of `list0` equal to `(1 / FVScale, 2 / FVScale)`, the triangular entry at
`inverse(w)` for the pair of `list1` equal to `(-1 / FVScale, 2 / FVScale)`, and the flat
entries at `(b, w, list0[0])` and `(b, w, list0[1])` each equal to
`(1 / FVScale, 2 / FVScale)`. -/
theorem C3_end_to_end_scaled (FVScale : ℚ) (inverse : Nat → Nat) (pos : Position)
    (g : TriangularEvaluatorGradient) (hn : pos.nlist = 2)
    (hslot : ¬ (pos.kingSquare Color.Black = inverse (pos.kingSquare Color.White)
      ∧ triIndex (pos.cplist0 0) (pos.cplist0 1) = triIndex (pos.cplist1 0) (pos.cplist1 1)))
    (hfe : pos.cplist0 0 ≠ pos.cplist0 1) :
    ((incParam FVScale inverse pos (1, 2) (clear g)).kpp_grad (pos.kingSquare Color.Black)).at_
        (pos.cplist0 0) (pos.cplist0 1) = (1 / FVScale, 2 / FVScale)
    ∧ ((incParam FVScale inverse pos (1, 2) (clear g)).kpp_grad
        (inverse (pos.kingSquare Color.White))).at_
        (pos.cplist1 0) (pos.cplist1 1) = (-(1 / FVScale), 2 / FVScale)
    ∧ (incParam FVScale inverse pos (1, 2) (clear g)).kkp_grad (pos.kingSquare Color.Black)
        (pos.kingSquare Color.White) (pos.cplist0 0) = (1 / FVScale, 2 / FVScale)
    ∧ (incParam FVScale inverse pos (1, 2) (clear g)).kkp_grad (pos.kingSquare Color.Black)
        (pos.kingSquare Color.White) (pos.cplist0 1) = (1 / FVScale, 2 / FVScale) := by
  have hslot' : ¬ (inverse (pos.kingSquare Color.White) = pos.kingSquare Color.Black
      ∧ triIndex (pos.cplist1 0) (pos.cplist1 1) = triIndex (pos.cplist0 0) (pos.cplist0 1)) :=
    fun e => hslot ⟨e.1.symm, e.2.symm⟩
  have hfe' : pos.cplist0 1 ≠ pos.cplist0 0 := fun e => hfe e.symm
  unfold TriangularArray.at_
  simp only [incParam_two_kpp FVScale inverse pos (1, 2) _ hn,
    incParam_two_kkp FVScale inverse pos (1, 2) _ hn]
  rw [triIndex_comm (pos.cplist0 1) (pos.cplist0 0), triIndex_comm (pos.cplist1 1) (pos.cplist1 0)]
  refine ⟨?_, ?_, ?_, ?_⟩
  · simp [clear, hslot]
  · simp [clear, hslot']
  · simp [clear, hfe]
  · simp [clear, hfe']

/-- Witness of the amended C3 at `samplePosition` with `FVScale = 32`. -/
theorem C3_end_to_end_scaled_witness :
    ((incParam 32 sampleInverse samplePosition (1, 2) (clear 0)).kpp_grad
        (samplePosition.kingSquare Color.Black)).at_
        (samplePosition.cplist0 0) (samplePosition.cplist0 1) = (1 / 32, 2 / 32)
    ∧ ((incParam 32 sampleInverse samplePosition (1, 2) (clear 0)).kpp_grad
        (sampleInverse (samplePosition.kingSquare Color.White))).at_
        (samplePosition.cplist1 0) (samplePosition.cplist1 1) = (-(1 / 32), 2 / 32)
    ∧ (incParam 32 sampleInverse samplePosition (1, 2) (clear 0)).kkp_grad
        (samplePosition.kingSquare Color.Black) (samplePosition.kingSquare Color.White)
        (samplePosition.cplist0 0) = (1 / 32, 2 / 32)
    ∧ (incParam 32 sampleInverse samplePosition (1, 2) (clear 0)).kkp_grad
        (samplePosition.kingSquare Color.Black) (samplePosition.kingSquare Color.White)
        (samplePosition.cplist0 1) = (1 / 32, 2 / 32) :=
  C3_end_to_end_scaled 32 sampleInverse samplePosition 0 rfl
    (by simp [samplePosition, sampleInverse]) (by simp [samplePosition])

/-- C7 (order-independence of accumulation). For every store and every finite sequence of
`(position, delta)` calls of `incParam`, running the calls in any permuted order leaves the
same store. -/
theorem C7_accumulation_order_independent (FVScale : ℚ) (inverse : Nat → Nat)
    (g : TriangularEvaluatorGradient) (calls calls' : List (Position × Vec2))
    (hperm : calls.Perm calls') :
    calls.foldl (fun s c => incParam FVScale inverse c.1 c.2 s) g
      = calls'.foldl (fun s c => incParam FVScale inverse c.1 c.2 s) g := by
  apply List.Perm.foldl_eq' hperm
  intro x _ y _ z
  simp only [incParam_eq_add]
  rw [add_assoc, add_assoc, add_comm (incParamDelta FVScale inverse x.1 x.2)]

/-- Witness of C7: the calls on `samplePosition` and `symmetricPosition` in both orders. -/
theorem C7_accumulation_order_independent_witness :
    [(samplePosition, ((1 : ℚ), (2 : ℚ))), (symmetricPosition, (3, 4))].Perm
      [(symmetricPosition, (3, 4)), (samplePosition, (1, 2))]
    ∧ [(samplePosition, ((1 : ℚ), (2 : ℚ))), (symmetricPosition, (3, 4))].foldl
        (fun s c => incParam 32 sampleInverse c.1 c.2 s) 0
      = [(symmetricPosition, (3, 4)), (samplePosition, ((1 : ℚ), (2 : ℚ)))].foldl
        (fun s c => incParam 32 sampleInverse c.1 c.2 s) 0 :=
  ⟨List.Perm.swap _ _ _,
    C7_accumulation_order_independent 32 sampleInverse 0 _ _ (List.Perm.swap _ _ _)⟩

/-! ## `operator +=` adds the part of `rhs` inside the bounds -/

theorem sum_ite_pair {M : Type} [AddCommMonoid M] (S T : Finset Nat) (r : Nat → Nat → M)
    (s m : Nat) :
    (∑ a ∈ S, ∑ b ∈ T, if s = a ∧ m = b then r a b else 0)
      = if s ∈ S ∧ m ∈ T then r s m else 0 := by
  have inner : ∀ a, (∑ b ∈ T, if s = a ∧ m = b then r a b else 0)
      = if s = a then (if m ∈ T then r a m else 0) else 0 := by
    intro a
    by_cases ha : s = a
    · simp [ha]
    · simp [ha]
  simp only [inner, Finset.sum_ite_eq]
  by_cases hs : s ∈ S <;> by_cases hm : m ∈ T <;> simp [hs, hm]

theorem opAddAssignKppSq_add (fe_end : Nat) (rhs lhs : TriangularEvaluatorGradient) (sq : Nat) :
    opAddAssignKppSq fe_end rhs lhs sq = lhs +
      ∑ n ∈ Finset.range (TriangularArray.size fe_end), kppSingle sq n (rhs.kpp_grad sq n) := by
  unfold opAddAssignKppSq
  apply foldl_range_add
  intro a n
  exact setKppSlot_add a sq n _

theorem opAddAssignKkp_add (SquareNum fe_end : Nat) (rhs lhs : TriangularEvaluatorGradient) :
    opAddAssignKkp SquareNum fe_end rhs lhs = lhs +
      ∑ sq0 ∈ Finset.range SquareNum, ∑ sq1 ∈ Finset.range SquareNum,
        ∑ i ∈ Finset.range fe_end, kkpSingle sq0 sq1 i (rhs.kkp_grad sq0 sq1 i) := by
  unfold opAddAssignKkp
  apply foldl_range_add
  intro a0 sq0
  apply foldl_range_add
  intro a1 sq1
  apply foldl_range_add
  intro a i
  exact setKkp_add a sq0 sq1 i _

theorem opAddAssign_eq_add (SQ11 SquareNum fe_end : Nat)
    (lhs rhs : TriangularEvaluatorGradient) :
    opAddAssign SQ11 SquareNum fe_end lhs rhs
      = lhs + inRangePart SQ11 SquareNum fe_end rhs := by
  unfold opAddAssign
  rw [opAddAssignKkp_add,
    foldl_loopRange_add _ _ (fun a sq => opAddAssignKppSq_add fe_end rhs a sq), add_assoc]
  congr 1
  ext1
  · funext s m
    rw [add_kpp_grad, sum_kpp_grad, sum_kpp_grad]
    simp only [sum_kpp_grad, kppSingle_kpp_grad, kkpSingle_kpp_grad, Finset.sum_const_zero,
      add_zero]
    rw [sum_ite_pair]
    simp [inRangePart, and_assoc]
  · funext a b i
    rw [add_kkp_grad, sum_kkp_grad, sum_kkp_grad]
    simp only [sum_kkp_grad, kppSingle_kkp_grad, kkpSingle_kkp_grad, Finset.sum_const_zero,
      zero_add]
    have inner : ∀ x y, (∑ z ∈ Finset.range fe_end,
        if a = x ∧ b = y ∧ i = z then rhs.kkp_grad x y z else 0)
        = if a = x ∧ b = y then (if i < fe_end then rhs.kkp_grad x y i else 0) else 0 := by
      intro x y
      by_cases h : a = x ∧ b = y
      · simp [h]
      · rw [if_neg h]
        apply Finset.sum_eq_zero
        intro z _
        rw [if_neg]
        exact fun e => h ⟨e.1, e.2.1⟩
    simp only [inner]
    rw [sum_ite_pair]
    simp only [inRangePart, Finset.mem_range]
    by_cases h1 : a < SquareNum <;> by_cases h2 : b < SquareNum <;>
      by_cases h3 : i < fe_end <;> simp [h1, h2, h3]

theorem inRangePart_add_inRangePart (SQ11 SquareNum fe_end : Nat)
    (b c : TriangularEvaluatorGradient) :
    inRangePart SQ11 SquareNum fe_end (b + inRangePart SQ11 SquareNum fe_end c)
      = inRangePart SQ11 SquareNum fe_end b + inRangePart SQ11 SquareNum fe_end c := by
  ext1
  · funext s m
    rw [add_kpp_grad]
    simp only [inRangePart, add_kpp_grad]
    split_ifs <;> simp
  · funext x y i
    rw [add_kkp_grad]
    simp only [inRangePart, add_kkp_grad]
    split_ifs <;> simp

/-! ## The triangular offset -/

theorem tri_succ (a : Nat) : (a + 1) * (a + 1 + 1) / 2 = a * (a + 1) / 2 + (a + 1) := by
  have h : (a + 1) * (a + 1 + 1) = a * (a + 1) + 2 * (a + 1) := by ring
  rw [h, Nat.add_mul_div_left _ _ (by norm_num : 0 < 2)]

theorem tri_mono {a b : Nat} (h : a ≤ b) : a * (a + 1) / 2 ≤ b * (b + 1) / 2 :=
  Nat.div_le_div_right (Nat.mul_le_mul h (Nat.succ_le_succ h))

theorem tri_add_lt {a b c : Nat} (hc : c ≤ a) (h : a < b) :
    a * (a + 1) / 2 + c < b * (b + 1) / 2 := by
  have h1 := tri_succ a
  have h2 : (a + 1) * (a + 1 + 1) / 2 ≤ b * (b + 1) / 2 := tri_mono h
  omega

theorem triIndex_lt_size {fe_end i j : Nat} (hi : i < fe_end) (hj : j < fe_end) :
    triIndex i j < TriangularArray.size fe_end := by
  unfold triIndex TriangularArray.size
  exact tri_add_lt (le_trans (min_le_left i j) (le_max_left i j)) (max_lt hi hj)

theorem triIndex_inj {i j k l : Nat} (h : triIndex i j = triIndex k l) :
    max i j = max k l ∧ min i j = min k l := by
  unfold triIndex at h
  have hb : min i j ≤ max i j := le_trans (min_le_left i j) (le_max_left i j)
  have hb' : min k l ≤ max k l := le_trans (min_le_left k l) (le_max_left k l)
  rcases Nat.lt_trichotomy (max i j) (max k l) with hlt | heq | hgt
  · have := tri_add_lt hb hlt
    omega
  · rw [heq] at h
    exact ⟨heq, Nat.add_left_cancel h⟩
  · have := tri_add_lt hb' hgt
    omega

theorem triIndex_eq_iff (i j k l : Nat) :
    triIndex i j = triIndex k l ↔ (i = k ∧ j = l) ∨ (i = l ∧ j = k) := by
  constructor
  · intro h
    have := triIndex_inj h
    omega
  · rintro (⟨rfl, rfl⟩ | ⟨rfl, rfl⟩)
    · rfl
    · unfold triIndex; rw [max_comm, min_comm]

theorem tri_sum_perm {M : Type} [AddCommMonoid M] (P : Nat → Nat → M)
    (hP : ∀ i j, P i j = P j i) (σ : Equiv.Perm Nat) (n : Nat) (hσ : ∀ i, σ i < n ↔ i < n) :
    ∑ i ∈ Finset.range n, ∑ j ∈ Finset.range i, P (σ i) (σ j)
      = ∑ i ∈ Finset.range n, ∑ j ∈ Finset.range i, P i j := by
  have hσ' : ∀ i, σ.symm i < n ↔ i < n := by
    intro i
    have := hσ (σ.symm i)
    rw [Equiv.apply_symm_apply] at this
    exact this.symm
  rw [Finset.sum_sigma', Finset.sum_sigma']
  refine Finset.sum_nbij'
    (fun x => if σ x.2 < σ x.1 then ⟨σ x.1, σ x.2⟩ else ⟨σ x.2, σ x.1⟩)
    (fun y => if σ.symm y.2 < σ.symm y.1 then ⟨σ.symm y.1, σ.symm y.2⟩
      else ⟨σ.symm y.2, σ.symm y.1⟩) ?_ ?_ ?_ ?_ ?_
  · rintro ⟨i, j⟩ hx
    simp only [Finset.mem_sigma, Finset.mem_range] at hx ⊢
    have hne : σ i ≠ σ j := fun e => absurd (σ.injective e) (by omega)
    by_cases h : σ j < σ i
    · simp only [h, if_true, and_true]
      exact (hσ i).2 hx.1
    · simp only [h, if_false]
      exact ⟨(hσ j).2 (by omega), by omega⟩
  · rintro ⟨i, j⟩ hx
    simp only [Finset.mem_sigma, Finset.mem_range] at hx ⊢
    have hne : σ.symm i ≠ σ.symm j := fun e => absurd (σ.symm.injective e) (by omega)
    by_cases h : σ.symm j < σ.symm i
    · simp only [h, if_true, and_true]
      exact (hσ' i).2 hx.1
    · simp only [h, if_false]
      exact ⟨(hσ' j).2 (by omega), by omega⟩
  · rintro ⟨i, j⟩ hx
    simp only [Finset.mem_sigma, Finset.mem_range] at hx
    by_cases h : σ j < σ i
    · simp [h, hx.2]
    · have hji : ¬ i < j := by omega
      simp [h, hji]
  · rintro ⟨i, j⟩ hx
    simp only [Finset.mem_sigma, Finset.mem_range] at hx
    by_cases h : σ.symm j < σ.symm i
    · simp [h, hx.2]
    · have hji : ¬ i < j := by omega
      simp [h, hji]
  · rintro ⟨i, j⟩ _
    by_cases h : σ j < σ i
    · simp [h]
    · simp only [h, if_false]
      exact hP _ _

/-- C5 (merge is element-wise addition). For distinct references `target` and `source`,
after `operator +=` every triangular entry of the target at every square from `SQ11` below
`SquareNum` and every stored pair `(i, j)` of features below `fe_end` is its old value plus
the source's entry at the same place, every flat entry `kkp_grad[sq0][sq1][i]` inside the
bounds likewise, and the source store is unchanged. -/
theorem C5_merge_elementwise (SQ11 SquareNum fe_end : Nat) (h : Heap) (target source : Nat)
    (hne : target ≠ source) :
    (∀ sq i j : Nat, SQ11 ≤ sq → sq < SquareNum → i < fe_end → j < fe_end →
      ((opAddAssignRef SQ11 SquareNum fe_end target source h target).kpp_grad sq).at_ i j
        = ((h target).kpp_grad sq).at_ i j + ((h source).kpp_grad sq).at_ i j)
    ∧ (∀ sq0 sq1 i : Nat, sq0 < SquareNum → sq1 < SquareNum → i < fe_end →
      (opAddAssignRef SQ11 SquareNum fe_end target source h target).kkp_grad sq0 sq1 i
        = (h target).kkp_grad sq0 sq1 i + (h source).kkp_grad sq0 sq1 i)
    ∧ opAddAssignRef SQ11 SquareNum fe_end target source h source = h source := by
  refine ⟨?_, ?_, ?_⟩
  · intro sq i j h1 h2 hi hj
    unfold TriangularArray.at_ opAddAssignRef
    rw [Function.update_same, opAddAssign_eq_add, add_kpp_grad]
    simp [inRangePart, h1, h2, triIndex_lt_size hi hj]
  · intro sq0 sq1 i h0 h1 hi
    unfold opAddAssignRef
    rw [Function.update_same, opAddAssign_eq_add, add_kkp_grad]
    simp [inRangePart, h0, h1, hi]
  · unfold opAddAssignRef
    exact Function.update_noteq (fun e => hne e.symm) _ _

/-- Witness of C5: merging store 1 into store 0 of a two-store memory, with `SQ11 = 0`,
`SquareNum = 81` and `fe_end = 10`. -/
theorem C5_merge_elementwise_witness :
    (0 : Nat) ≠ 1
    ∧ (∀ sq i j : Nat, 0 ≤ sq → sq < 81 → i < 10 → j < 10 →
      ((opAddAssignRef 0 81 10 0 1
          (fun r => if r = 0 then kppSingle 10 33 (1, 2) else kkpSingle 10 20 5 (3, 4))
          0).kpp_grad sq).at_ i j
        = (((fun r => if r = 0 then kppSingle 10 33 (1, 2) else kkpSingle 10 20 5 (3, 4))
            0 : TriangularEvaluatorGradient).kpp_grad sq).at_ i j
          + (((fun r => if r = 0 then kppSingle 10 33 (1, 2) else kkpSingle 10 20 5 (3, 4))
            1 : TriangularEvaluatorGradient).kpp_grad sq).at_ i j)
    ∧ (∀ sq0 sq1 i : Nat, sq0 < 81 → sq1 < 81 → i < 10 →
      (opAddAssignRef 0 81 10 0 1
          (fun r => if r = 0 then kppSingle 10 33 (1, 2) else kkpSingle 10 20 5 (3, 4))
          0).kkp_grad sq0 sq1 i
        = ((fun r => if r = 0 then kppSingle 10 33 (1, 2) else kkpSingle 10 20 5 (3, 4))
            0 : TriangularEvaluatorGradient).kkp_grad sq0 sq1 i
          + ((fun r => if r = 0 then kppSingle 10 33 (1, 2) else kkpSingle 10 20 5 (3, 4))
            1 : TriangularEvaluatorGradient).kkp_grad sq0 sq1 i)
    ∧ opAddAssignRef 0 81 10 0 1
        (fun r => if r = 0 then kppSingle 10 33 (1, 2) else kkpSingle 10 20 5 (3, 4)) 1
      = (fun r => if r = 0 then kppSingle 10 33 (1, 2) else kkpSingle 10 20 5 (3, 4)) 1 :=
  ⟨by decide, C5_merge_elementwise 0 81 10
    (fun r => if r = 0 then kppSingle 10 33 (1, 2) else kkpSingle 10 20 5 (3, 4)) 0 1
    (by decide)⟩

/-- C6 (triangular symmetry). The accessor gives `at(i, j)` and `at(j, i)` the same slot,
and two pairs share a slot exactly when they are the same unordered pair; consequently, for
every store, position and delta, reordering the feature list (one permutation `σ` of the
list positions applied to both `list0` and `list1`) leaves `incParam` with exactly the same
resulting store. -/
theorem C6_triangular_symmetry (FVScale : ℚ) (inverse : Nat → Nat) (pos : Position)
    (dinc : Vec2) (g : TriangularEvaluatorGradient) (σ : Equiv.Perm Nat)
    (hσ : ∀ i, σ i < pos.nlist ↔ i < pos.nlist) :
    (∀ (t : TriangularArray) (i j : Nat), t.at_ i j = t.at_ j i)
    ∧ (∀ i j k l : Nat, triIndex i j = triIndex k l ↔ (i = k ∧ j = l) ∨ (i = l ∧ j = k))
    ∧ incParam FVScale inverse (reorderList σ pos) dinc g
        = incParam FVScale inverse pos dinc g := by
  refine ⟨fun t i j => ?_, triIndex_eq_iff, ?_⟩
  · unfold TriangularArray.at_
    rw [triIndex_comm]
  · rw [incParam_eq_add, incParam_eq_add]
    congr 1
    unfold incParamDelta reorderList
    simp only
    rw [Finset.sum_add_distrib, Finset.sum_add_distrib]
    congr 1
    · exact tri_sum_perm
        (fun i j => kppSingle (pos.kingSquare Color.Black)
            (triIndex (pos.cplist0 i) (pos.cplist0 j)) (dinc.1 / FVScale, dinc.2 / FVScale)
          + kppSingle (inverse (pos.kingSquare Color.White))
            (triIndex (pos.cplist1 i) (pos.cplist1 j)) (-(dinc.1 / FVScale), dinc.2 / FVScale))
        (fun i j => by
          simp only [triIndex_comm (pos.cplist0 i) (pos.cplist0 j),
            triIndex_comm (pos.cplist1 i) (pos.cplist1 j)])
        σ pos.nlist hσ
    · exact Finset.sum_equiv σ (fun i => by simp [hσ i]) (fun i _ => rfl)

/-- Witness of C6: `samplePosition` with its two list entries swapped. -/
theorem C6_triangular_symmetry_witness :
    (∀ i, (Equiv.swap 0 1 : Equiv.Perm Nat) i < samplePosition.nlist ↔ i < samplePosition.nlist)
    ∧ (∀ (t : TriangularArray) (i j : Nat), t.at_ i j = t.at_ j i)
    ∧ (∀ i j k l : Nat, triIndex i j = triIndex k l ↔ (i = k ∧ j = l) ∨ (i = l ∧ j = k))
    ∧ incParam 32 sampleInverse (reorderList (Equiv.swap 0 1) samplePosition) (1, 2) 0
        = incParam 32 sampleInverse samplePosition (1, 2) 0 := by
  have hσ : ∀ i, (Equiv.swap 0 1 : Equiv.Perm Nat) i < samplePosition.nlist
      ↔ i < samplePosition.nlist := by
    intro i
    show (Equiv.swap 0 1 : Equiv.Perm Nat) i < 2 ↔ i < 2
    by_cases h0 : i = 0
    · subst h0; simp
    · by_cases h1 : i = 1
      · subst h1; simp
      · rw [Equiv.swap_apply_of_ne_of_ne h0 h1]
  exact ⟨hσ, C6_triangular_symmetry 32 sampleInverse samplePosition (1, 2) 0 _ hσ⟩

/-- C8 (merge associativity). For all stores `A`, `B`, `C`, merging `B` into `A` and then
`C` into the result leaves the same store as merging `C` into `B` and then that result
into `A`. -/
theorem C8_merge_associative (SQ11 SquareNum fe_end : Nat)
    (A B C : TriangularEvaluatorGradient) :
    opAddAssign SQ11 SquareNum fe_end (opAddAssign SQ11 SquareNum fe_end A B) C
      = opAddAssign SQ11 SquareNum fe_end A (opAddAssign SQ11 SquareNum fe_end B C) := by
  simp only [opAddAssign_eq_add]
  rw [inRangePart_add_inRangePart, add_assoc]

/-! ## `incParam`, entry by entry -/

theorem incParam_kpp_grad (FVScale : ℚ) (inverse : Nat → Nat) (pos : Position) (dinc : Vec2)
    (g : TriangularEvaluatorGradient) (s m : Nat) :
    (incParam FVScale inverse pos dinc g).kpp_grad s m = g.kpp_grad s m +
      ∑ i ∈ Finset.range pos.nlist, ∑ j ∈ Finset.range i,
        ((if s = pos.kingSquare Color.Black ∧ m = triIndex (pos.cplist0 i) (pos.cplist0 j)
            then (dinc.1 / FVScale, dinc.2 / FVScale) else 0)
         + (if s = inverse (pos.kingSquare Color.White)
              ∧ m = triIndex (pos.cplist1 i) (pos.cplist1 j)
            then (-(dinc.1 / FVScale), dinc.2 / FVScale) else 0)) := by
  rw [incParam_eq_add, add_kpp_grad]
  unfold incParamDelta
  simp only [sum_kpp_grad, add_kpp_grad, kppSingle_kpp_grad, kkpSingle_kpp_grad, add_zero]

theorem incParam_kkp_grad (FVScale : ℚ) (inverse : Nat → Nat) (pos : Position) (dinc : Vec2)
    (g : TriangularEvaluatorGradient) (s t k : Nat) :
    (incParam FVScale inverse pos dinc g).kkp_grad s t k = g.kkp_grad s t k +
      ∑ i ∈ Finset.range pos.nlist,
        (if s = pos.kingSquare Color.Black ∧ t = pos.kingSquare Color.White ∧ k = pos.cplist0 i
          then (dinc.1 / FVScale, dinc.2 / FVScale) else 0) := by
  rw [incParam_eq_add, add_kkp_grad]
  unfold incParamDelta
  simp only [sum_kkp_grad, add_kkp_grad, kppSingle_kkp_grad, kkpSingle_kkp_grad,
    Finset.sum_const_zero, zero_add]

/-- C11 (short feature list). For a position whose feature list has fewer than two entries
and every delta and store, `incParam` changes no triangular entry at any square; with
exactly one entry it adds `(dinc[0] / FVScale, dinc[1] / FVScale)` to the flat entry
`kkp_grad[bk][wk][list0[0]]` and changes no other flat entry; with no entry it returns the
store unchanged. -/
theorem C11_short_feature_list (FVScale : ℚ) (inverse : Nat → Nat) (pos : Position)
    (dinc : Vec2) (g : TriangularEvaluatorGradient) (hn : pos.nlist < 2) :
    (∀ sq m : Nat, (incParam FVScale inverse pos dinc g).kpp_grad sq m = g.kpp_grad sq m)
    ∧ (pos.nlist = 1 →
        (incParam FVScale inverse pos dinc g).kkp_grad (pos.kingSquare Color.Black)
            (pos.kingSquare Color.White) (pos.cplist0 0)
          = g.kkp_grad (pos.kingSquare Color.Black) (pos.kingSquare Color.White) (pos.cplist0 0)
            + (dinc.1 / FVScale, dinc.2 / FVScale)
        ∧ ∀ s t k : Nat, ¬ (s = pos.kingSquare Color.Black ∧ t = pos.kingSquare Color.White
            ∧ k = pos.cplist0 0) →
          (incParam FVScale inverse pos dinc g).kkp_grad s t k = g.kkp_grad s t k)
    ∧ (pos.nlist = 0 → incParam FVScale inverse pos dinc g = g) := by
  have hcases : pos.nlist = 0 ∨ pos.nlist = 1 := by omega
  refine ⟨fun sq m => ?_, fun h1 => ⟨?_, fun s t k hne => ?_⟩, fun h0 => ?_⟩
  · rw [incParam_kpp_grad]
    rcases hcases with h | h <;> simp [h, Finset.sum_range_succ]
  · rw [incParam_kkp_grad, h1]
    simp [Finset.sum_range_succ]
  · rw [incParam_kkp_grad, h1]
    simp [Finset.sum_range_succ, hne]
  · unfold incParam
    rw [h0]
    rfl

/-- Witness of C11 at `singleEntryPosition`. -/
theorem C11_short_feature_list_witness :
    singleEntryPosition.nlist < 2
    ∧ (∀ sq m : Nat,
        (incParam 32 sampleInverse singleEntryPosition (1, 2) 0).kpp_grad sq m
          = (0 : TriangularEvaluatorGradient).kpp_grad sq m)
    ∧ (singleEntryPosition.nlist = 1 →
        (incParam 32 sampleInverse singleEntryPosition (1, 2) 0).kkp_grad
            (singleEntryPosition.kingSquare Color.Black)
            (singleEntryPosition.kingSquare Color.White) (singleEntryPosition.cplist0 0)
          = (0 : TriangularEvaluatorGradient).kkp_grad
              (singleEntryPosition.kingSquare Color.Black)
              (singleEntryPosition.kingSquare Color.White) (singleEntryPosition.cplist0 0)
            + ((1 : ℚ) / 32, (2 : ℚ) / 32)
        ∧ ∀ s t k : Nat,
          ¬ (s = singleEntryPosition.kingSquare Color.Black
            ∧ t = singleEntryPosition.kingSquare Color.White
            ∧ k = singleEntryPosition.cplist0 0) →
          (incParam 32 sampleInverse singleEntryPosition (1, 2) 0).kkp_grad s t k
            = (0 : TriangularEvaluatorGradient).kkp_grad s t k)
    ∧ (singleEntryPosition.nlist = 0 →
        incParam 32 sampleInverse singleEntryPosition (1, 2) 0 = 0) :=
  ⟨by decide, C11_short_feature_list 32 sampleInverse singleEntryPosition (1, 2) 0 (by decide)⟩

/-- C18 (accumulation frame). For every store, position and delta, `incParam` leaves
unchanged every triangular slot in the tables of squares other than `bk` and `inverse(wk)`;
every triangular entry `at(a, b)` of a square unless the square is `bk` and `{a, b}` is
`{list0[i], list0[j]}`, or the square is `inverse(wk)` and `{a, b}` is
`{list1[i], list1[j]}`, for some list positions `j < i < nlist`; and every flat entry other
than `kkp_grad[bk][wk][list0[i]]` for some `i < nlist`. -/
theorem C18_accumulation_frame (FVScale : ℚ) (inverse : Nat → Nat) (pos : Position)
    (dinc : Vec2) (g : TriangularEvaluatorGradient) :
    (∀ sq m : Nat, sq ≠ pos.kingSquare Color.Black →
        sq ≠ inverse (pos.kingSquare Color.White) →
        (incParam FVScale inverse pos dinc g).kpp_grad sq m = g.kpp_grad sq m)
    ∧ (∀ sq a b : Nat,
        ¬ (sq = pos.kingSquare Color.Black ∧ ∃ i j : Nat, j < i ∧ i < pos.nlist
            ∧ ((a = pos.cplist0 i ∧ b = pos.cplist0 j) ∨ (a = pos.cplist0 j ∧ b = pos.cplist0 i))) →
        ¬ (sq = inverse (pos.kingSquare Color.White) ∧ ∃ i j : Nat, j < i ∧ i < pos.nlist
            ∧ ((a = pos.cplist1 i ∧ b = pos.cplist1 j) ∨ (a = pos.cplist1 j ∧ b = pos.cplist1 i))) →
        ((incParam FVScale inverse pos dinc g).kpp_grad sq).at_ a b = (g.kpp_grad sq).at_ a b)
    ∧ (∀ s t k : Nat,
        ¬ (s = pos.kingSquare Color.Black ∧ t = pos.kingSquare Color.White
            ∧ ∃ i : Nat, i < pos.nlist ∧ k = pos.cplist0 i) →
        (incParam FVScale inverse pos dinc g).kkp_grad s t k = g.kkp_grad s t k) := by
  refine ⟨fun sq m h1 h2 => ?_, fun sq a b h1 h2 => ?_, fun s t k h => ?_⟩
  · rw [incParam_kpp_grad]
    simp [h1, h2]
  · unfold TriangularArray.at_
    rw [incParam_kpp_grad]
    have hzero : ∀ i ∈ Finset.range pos.nlist, ∀ j ∈ Finset.range i,
        ((if sq = pos.kingSquare Color.Black
              ∧ triIndex a b = triIndex (pos.cplist0 i) (pos.cplist0 j)
            then ((dinc.1 / FVScale, dinc.2 / FVScale) : Vec2) else 0)
         + (if sq = inverse (pos.kingSquare Color.White)
              ∧ triIndex a b = triIndex (pos.cplist1 i) (pos.cplist1 j)
            then ((-(dinc.1 / FVScale), dinc.2 / FVScale) : Vec2) else 0)) = 0 := by
      intro i hi j hj
      rw [Finset.mem_range] at hi hj
      rw [if_neg, if_neg, add_zero]
      · rintro ⟨e1, e2⟩
        exact h2 ⟨e1, i, j, hj, hi, (triIndex_eq_iff _ _ _ _).1 e2⟩
      · rintro ⟨e1, e2⟩
        exact h1 ⟨e1, i, j, hj, hi, (triIndex_eq_iff _ _ _ _).1 e2⟩
    rw [Finset.sum_eq_zero (fun i hi => Finset.sum_eq_zero (hzero i hi)), add_zero]
  · rw [incParam_kkp_grad]
    have hzero : ∀ i ∈ Finset.range pos.nlist,
        (if s = pos.kingSquare Color.Black ∧ t = pos.kingSquare Color.White ∧ k = pos.cplist0 i
          then ((dinc.1 / FVScale, dinc.2 / FVScale) : Vec2) else 0) = 0 := by
      intro i hi
      rw [Finset.mem_range] at hi
      rw [if_neg]
      rintro ⟨e1, e2, e3⟩
      exact h ⟨e1, e2, i, hi, e3⟩
    rw [Finset.sum_eq_zero hzero, add_zero]

/-- C19 (mirror collision). For a two-feature position with `bk = inverse(wk)` and
`{list0[0], list0[1]} = {list1[0], list1[1]}` as unordered pairs, one `incParam` call with
delta `dinc` on a cleared store leaves the shared slot holding
`(0, 2 * dinc[1] / FVScale)` and every other triangular slot of every square `(0, 0)`. -/
theorem C19_mirror_collision (FVScale : ℚ) (inverse : Nat → Nat) (pos : Position)
    (dinc : Vec2) (g : TriangularEvaluatorGradient) (hn : pos.nlist = 2)
    (hk : pos.kingSquare Color.Black = inverse (pos.kingSquare Color.White))
    (hpair : (pos.cplist0 0 = pos.cplist1 0 ∧ pos.cplist0 1 = pos.cplist1 1)
      ∨ (pos.cplist0 0 = pos.cplist1 1 ∧ pos.cplist0 1 = pos.cplist1 0)) :
    ((incParam FVScale inverse pos dinc (clear g)).kpp_grad (pos.kingSquare Color.Black)).at_
        (pos.cplist0 0) (pos.cplist0 1) = (0, 2 * dinc.2 / FVScale)
    ∧ ((incParam FVScale inverse pos dinc (clear g)).kpp_grad
        (inverse (pos.kingSquare Color.White))).at_
        (pos.cplist1 0) (pos.cplist1 1) = (0, 2 * dinc.2 / FVScale)
    ∧ (∀ sq m : Nat, ¬ (sq = pos.kingSquare Color.Black
          ∧ m = triIndex (pos.cplist0 0) (pos.cplist0 1)) →
        (incParam FVScale inverse pos dinc (clear g)).kpp_grad sq m = (0, 0)) := by
  have ht : triIndex (pos.cplist0 1) (pos.cplist0 0) = triIndex (pos.cplist1 1) (pos.cplist1 0) := by
    rw [triIndex_eq_iff]
    rcases hpair with h | h
    · exact Or.inl ⟨h.2, h.1⟩
    · exact Or.inr ⟨h.2, h.1⟩
  have hval : ∀ sq m : Nat, (incParam FVScale inverse pos dinc (clear g)).kpp_grad sq m
      = if sq = pos.kingSquare Color.Black ∧ m = triIndex (pos.cplist0 0) (pos.cplist0 1)
        then (0, 2 * dinc.2 / FVScale) else (0, 0) := by
    intro sq m
    rw [incParam_two_kpp FVScale inverse pos dinc _ hn, ← hk, ← ht,
      triIndex_comm (pos.cplist0 1) (pos.cplist0 0)]
    by_cases h : sq = pos.kingSquare Color.Black ∧ m = triIndex (pos.cplist0 0) (pos.cplist0 1)
    · simp only [if_pos h, clear]
      simp [Prod.ext_iff]
      ring
    · simp [if_neg h, clear]
  refine ⟨?_, ?_, fun sq m h => ?_⟩
  · unfold TriangularArray.at_
    rw [hval, if_pos ⟨rfl, rfl⟩]
  · unfold TriangularArray.at_
    rw [hval, if_pos ⟨hk.symm, by rw [triIndex_comm, ← ht, triIndex_comm]⟩]
  · rw [hval, if_neg h]

/-- Witness of C19 at `symmetricPosition` with `FVScale = 32` and delta `(1, 2)`. -/
theorem C19_mirror_collision_witness :
    ((incParam 32 sampleInverse symmetricPosition (1, 2) (clear 0)).kpp_grad
        (symmetricPosition.kingSquare Color.Black)).at_
        (symmetricPosition.cplist0 0) (symmetricPosition.cplist0 1) = (0, 2 * (2 : ℚ) / 32)
    ∧ ((incParam 32 sampleInverse symmetricPosition (1, 2) (clear 0)).kpp_grad
        (sampleInverse (symmetricPosition.kingSquare Color.White))).at_
        (symmetricPosition.cplist1 0) (symmetricPosition.cplist1 1) = (0, 2 * (2 : ℚ) / 32)
    ∧ (∀ sq m : Nat, ¬ (sq = symmetricPosition.kingSquare Color.Black
          ∧ m = triIndex (symmetricPosition.cplist0 0) (symmetricPosition.cplist0 1)) →
        (incParam 32 sampleInverse symmetricPosition (1, 2) (clear 0)).kpp_grad sq m = (0, 0)) :=
  C19_mirror_collision 32 sampleInverse symmetricPosition (1, 2) 0 rfl (by decide)
    (by decide)

/-- Witness of C18 at `samplePosition`: slot 0 of square 11 and the flat entry `(10, 20, 6)`
keep their value. -/
theorem C18_accumulation_frame_witness :
    (incParam 32 sampleInverse samplePosition (1, 2) 0).kpp_grad 11 0
        = (0 : TriangularEvaluatorGradient).kpp_grad 11 0
    ∧ (incParam 32 sampleInverse samplePosition (1, 2) 0).kkp_grad 10 20 6
        = (0 : TriangularEvaluatorGradient).kkp_grad 10 20 6 :=
  ⟨(C18_accumulation_frame 32 sampleInverse samplePosition (1, 2) 0).1 11 0
      (by decide) (by decide),
    (C18_accumulation_frame 32 sampleInverse samplePosition (1, 2) 0).2.2 10 20 6 (by
      rintro ⟨-, -, i, -, h⟩
      simp only [samplePosition] at h
      split_ifs at h <;> omega)⟩

/-! ## Cleared stores, merge of accumulated stores, additivity of lowering -/

theorem clear_eq_zero (g : TriangularEvaluatorGradient) : clear g = 0 := rfl

theorem inRangePart_zero (SQ11 SquareNum fe_end : Nat) :
    inRangePart SQ11 SquareNum fe_end 0 = 0 := by
  ext1
  · funext s m
    simp [inRangePart, zero_kpp_grad]
  · funext a b i
    simp [inRangePart, zero_kkp_grad]

theorem inRangePart_add (SQ11 SquareNum fe_end : Nat) (a b : TriangularEvaluatorGradient) :
    inRangePart SQ11 SquareNum fe_end (a + b)
      = inRangePart SQ11 SquareNum fe_end a + inRangePart SQ11 SquareNum fe_end b := by
  ext1
  · funext s m
    rw [add_kpp_grad]
    simp only [inRangePart, add_kpp_grad]
    split_ifs <;> simp
  · funext x y i
    rw [add_kkp_grad]
    simp only [inRangePart, add_kkp_grad]
    split_ifs <;> simp

theorem routed_zero (indices : List Int) (c : Int) : routed indices 0 c = 0 := by
  unfold routed
  apply List.sum_eq_zero
  intro x hx
  rw [List.mem_map] at hx
  obtain ⟨idx, -, rfl⟩ := hx
  simp [signedSum, Prod.ext_iff]

theorem routed_add (indices : List Int) (g1 g2 : Vec2) (c : Int) :
    routed indices (g1 + g2) c = routed indices g1 c + routed indices g2 c := by
  unfold routed
  generalize (beforeSentinel indices).filter (fun idx => |idx| = c) = l
  induction l with
  | nil => simp
  | cons x xs ih =>
    simp only [List.map_cons, List.sum_cons, ih]
    have hx : signedSum x (g1 + g2) = signedSum x g1 + signedSum x g2 := by
      simp [signedSum, Prod.ext_iff, mul_add]
    rw [hx]
    abel

theorem lowerDimension_zero (SQ11 SquareNum fe_end : Nat) (base : EvaluatorBase) :
    lowerDimension SQ11 SquareNum fe_end base 0 = base := by
  have hk : lowerDimensionKPP SQ11 SquareNum fe_end base 0 = base.kpp := by
    rw [lowerDimensionKPP_eq]
    have hz : ∀ ksq i j, routed (base.kppIndices ksq i j)
        (((0 : TriangularEvaluatorGradient).kpp_grad ksq).at_ i j) = 0 := by
      intro ksq i j
      funext c
      exact routed_zero _ c
    simp only [hz, Finset.sum_const_zero, add_zero]
  have hkk : lowerDimensionKKP SQ11 SquareNum fe_end base 0 = base.kkp := by
    rw [lowerDimensionKKP_eq]
    have hz : ∀ ksq0 ksq1 i, routed (base.kkpIndices ksq0 ksq1 i)
        ((0 : TriangularEvaluatorGradient).kkp_grad ksq0 ksq1 i) = 0 := by
      intro ksq0 ksq1 i
      funext c
      exact routed_zero _ c
    simp only [hz, Finset.sum_const_zero, add_zero]
  unfold lowerDimension
  rw [hk, hkk]

theorem lowerDimension_opAddAssign (SQ11 SquareNum fe_end : Nat) (base : EvaluatorBase)
    (A B : TriangularEvaluatorGradient) :
    lowerDimension SQ11 SquareNum fe_end base (opAddAssign SQ11 SquareNum fe_end A B)
      = lowerDimension SQ11 SquareNum fe_end (lowerDimension SQ11 SquareNum fe_end base A) B := by
  have hk : lowerDimensionKPP SQ11 SquareNum fe_end base (opAddAssign SQ11 SquareNum fe_end A B)
      = lowerDimensionKPP SQ11 SquareNum fe_end
          (lowerDimension SQ11 SquareNum fe_end base A) B := by
    rw [lowerDimensionKPP_eq, lowerDimensionKPP_eq]
    show _ = lowerDimensionKPP SQ11 SquareNum fe_end base A + _
    rw [lowerDimensionKPP_eq, add_assoc]
    congr 1
    simp only [← Finset.sum_add_distrib]
    refine Finset.sum_congr rfl (fun ksq hksq => Finset.sum_congr rfl (fun i hi =>
      Finset.sum_congr rfl (fun j hj => ?_)))
    rw [Finset.mem_Ico] at hksq
    rw [Finset.mem_range] at hi hj
    funext c
    show routed _ _ c = routed _ _ c + routed (base.kppIndices ksq i j) _ c
    rw [← routed_add]
    congr 1
    unfold TriangularArray.at_
    rw [opAddAssign_eq_add, add_kpp_grad]
    simp [inRangePart, hksq.1, hksq.2, triIndex_lt_size hi (by omega : j < fe_end)]
  have hkk : lowerDimensionKKP SQ11 SquareNum fe_end base (opAddAssign SQ11 SquareNum fe_end A B)
      = lowerDimensionKKP SQ11 SquareNum fe_end
          (lowerDimension SQ11 SquareNum fe_end base A) B := by
    rw [lowerDimensionKKP_eq, lowerDimensionKKP_eq]
    show _ = lowerDimensionKKP SQ11 SquareNum fe_end base A + _
    rw [lowerDimensionKKP_eq, add_assoc]
    congr 1
    simp only [← Finset.sum_add_distrib]
    refine Finset.sum_congr rfl (fun ksq0 h0 => Finset.sum_congr rfl (fun ksq1 h1 =>
      Finset.sum_congr rfl (fun i hi => ?_)))
    rw [Finset.mem_Ico] at h0 h1
    rw [Finset.mem_range] at hi
    funext c
    show routed _ _ c = routed _ _ c + routed (base.kkpIndices ksq0 ksq1 i) _ c
    rw [← routed_add]
    congr 1
    rw [opAddAssign_eq_add, add_kkp_grad]
    simp [inRangePart, h0.2, h1.2, hi]
  unfold lowerDimension
  simp only [hk, hkk]
  rfl

/-- C14 (clear resets the store). After `clear()` every triangular slot of every square,
every triangular entry `at(i, j)` and every flat entry is `(0, 0)`, whatever the store
held; the cleared store is the empty (all-zero) store, so `incParam` on it does what it
does on the empty store, merging it into a store leaves that store unchanged, merging
into it does what merging into the empty store does, and lowering it leaves the
parameter store unchanged. -/
theorem C14_clear_resets (g : TriangularEvaluatorGradient) :
    (∀ sq m : Nat, (clear g).kpp_grad sq m = (0, 0))
    ∧ (∀ sq i j : Nat, ((clear g).kpp_grad sq).at_ i j = (0, 0))
    ∧ (∀ sq0 sq1 i : Nat, (clear g).kkp_grad sq0 sq1 i = (0, 0))
    ∧ clear g = 0
    ∧ (∀ (FVScale : ℚ) (inverse : Nat → Nat) (pos : Position) (dinc : Vec2),
        incParam FVScale inverse pos dinc (clear g) = incParam FVScale inverse pos dinc 0)
    ∧ (∀ (SQ11 SquareNum fe_end : Nat) (lhs : TriangularEvaluatorGradient),
        opAddAssign SQ11 SquareNum fe_end lhs (clear g) = lhs)
    ∧ (∀ (SQ11 SquareNum fe_end : Nat) (rhs : TriangularEvaluatorGradient),
        opAddAssign SQ11 SquareNum fe_end (clear g) rhs
          = opAddAssign SQ11 SquareNum fe_end 0 rhs)
    ∧ (∀ (SQ11 SquareNum fe_end : Nat) (base : EvaluatorBase),
        lowerDimension SQ11 SquareNum fe_end base (clear g) = base) := by
  refine ⟨fun _ _ => rfl, fun _ _ _ => rfl, fun _ _ _ => rfl, rfl, fun _ _ _ _ => rfl,
    fun SQ11 SquareNum fe_end lhs => ?_, fun _ _ _ _ => rfl, fun SQ11 SquareNum fe_end base => ?_⟩
  · rw [clear_eq_zero, opAddAssign_eq_add, inRangePart_zero, add_zero]
  · rw [clear_eq_zero, lowerDimension_zero]

/-- C16 (lowering is additive in the gradient store). For every parameter store, every
pair of gradient stores `A`, `B` and a fixed index mapping, lowering the merged store
`A += B` gives the same parameter store as lowering `A` and then lowering `B` into the
result; and lowering the all-zero gradient store leaves the parameter store unchanged. -/
theorem C16_lowering_additive (SQ11 SquareNum fe_end : Nat) (base : EvaluatorBase)
    (A B : TriangularEvaluatorGradient) :
    lowerDimension SQ11 SquareNum fe_end base (opAddAssign SQ11 SquareNum fe_end A B)
      = lowerDimension SQ11 SquareNum fe_end (lowerDimension SQ11 SquareNum fe_end base A) B
    ∧ lowerDimension SQ11 SquareNum fe_end base 0 = base :=
  ⟨lowerDimension_opAddAssign SQ11 SquareNum fe_end base A B,
    lowerDimension_zero SQ11 SquareNum fe_end base⟩

theorem accumulate_eq_add (FVScale : ℚ) (inverse : Nat → Nat)
    (calls : List (Position × Vec2)) (g : TriangularEvaluatorGradient) :
    accumulate FVScale inverse calls g
      = g + (calls.map (fun c => incParamDelta FVScale inverse c.1 c.2)).sum := by
  unfold accumulate
  exact foldl_add_sum _ _ (fun a c => incParam_eq_add FVScale inverse c.1 c.2 a) calls g

theorem inRangePart_incParamDelta (SQ11 SquareNum fe_end : Nat) (FVScale : ℚ)
    (inverse : Nat → Nat) (pos : Position) (dinc : Vec2)
    (hb : pos.inBounds SQ11 SquareNum fe_end inverse) :
    inRangePart SQ11 SquareNum fe_end (incParamDelta FVScale inverse pos dinc)
      = incParamDelta FVScale inverse pos dinc := by
  obtain ⟨hb1, hb2, hb3, hb4, hb5, hb6⟩ := hb
  ext1
  · funext s m
    show (if SQ11 ≤ s ∧ s < SquareNum ∧ m < TriangularArray.size fe_end
      then (incParamDelta FVScale inverse pos dinc).kpp_grad s m else 0) = _
    by_cases hc : SQ11 ≤ s ∧ s < SquareNum ∧ m < TriangularArray.size fe_end
    · rw [if_pos hc]
    · rw [if_neg hc]
      unfold incParamDelta
      simp only [sum_kpp_grad, add_kpp_grad, kppSingle_kpp_grad, kkpSingle_kpp_grad, add_zero]
      symm
      refine Finset.sum_eq_zero (fun i hi => Finset.sum_eq_zero (fun j hj => ?_))
      rw [Finset.mem_range] at hi hj
      have hj' : j < pos.nlist := by omega
      rw [if_neg, if_neg, add_zero]
      · rintro ⟨e1, e2⟩
        exact hc ⟨e1 ▸ hb3, e1 ▸ hb4, e2 ▸ triIndex_lt_size (hb6 i hi).2 (hb6 j hj').2⟩
      · rintro ⟨e1, e2⟩
        exact hc ⟨e1 ▸ hb1, e1 ▸ hb2, e2 ▸ triIndex_lt_size (hb6 i hi).1 (hb6 j hj').1⟩
  · funext s t k
    show (if s < SquareNum ∧ t < SquareNum ∧ k < fe_end
      then (incParamDelta FVScale inverse pos dinc).kkp_grad s t k else 0) = _
    by_cases hc : s < SquareNum ∧ t < SquareNum ∧ k < fe_end
    · rw [if_pos hc]
    · rw [if_neg hc]
      unfold incParamDelta
      simp only [sum_kkp_grad, add_kkp_grad, kppSingle_kkp_grad, kkpSingle_kkp_grad,
        Finset.sum_const_zero, zero_add]
      symm
      refine Finset.sum_eq_zero (fun i hi => ?_)
      rw [Finset.mem_range] at hi
      rw [if_neg]
      rintro ⟨e1, e2, e3⟩
      exact hc ⟨e1 ▸ hb2, e2 ▸ hb5, e3 ▸ (hb6 i hi).1⟩

theorem inRangePart_sum_incParamDelta (SQ11 SquareNum fe_end : Nat) (FVScale : ℚ)
    (inverse : Nat → Nat) (calls : List (Position × Vec2))
    (hb : ∀ c ∈ calls, c.1.inBounds SQ11 SquareNum fe_end inverse) :
    inRangePart SQ11 SquareNum fe_end
        (calls.map (fun c => incParamDelta FVScale inverse c.1 c.2)).sum
      = (calls.map (fun c => incParamDelta FVScale inverse c.1 c.2)).sum := by
  induction calls with
  | nil => simpa using inRangePart_zero SQ11 SquareNum fe_end
  | cons c cs ih =>
    rw [List.map_cons, List.sum_cons, inRangePart_add,
      inRangePart_incParamDelta SQ11 SquareNum fe_end FVScale inverse c.1 c.2
        (hb c (List.mem_cons_self _ _)),
      ih (fun d hd => hb d (List.mem_cons_of_mem _ hd))]

/-- C15 (per-thread accumulation then merge). For all finite sequences `S1` and `S2` of
`(position, delta)` calls, where the positions of `S2` index the arrays inside their
bounds, accumulating `S1` into a cleared store `A` and `S2` into a cleared store `B` and
then merging `A += B` leaves `A` with the same contents as accumulating `S1` followed by
`S2` into one cleared store. -/
theorem C15_accumulate_then_merge (SQ11 SquareNum fe_end : Nat) (FVScale : ℚ)
    (inverse : Nat → Nat) (S1 S2 : List (Position × Vec2))
    (a b c : TriangularEvaluatorGradient)
    (hS2 : ∀ call ∈ S2, call.1.inBounds SQ11 SquareNum fe_end inverse) :
    opAddAssign SQ11 SquareNum fe_end (accumulate FVScale inverse S1 (clear a))
        (accumulate FVScale inverse S2 (clear b))
      = accumulate FVScale inverse (S1 ++ S2) (clear c) := by
  rw [opAddAssign_eq_add, accumulate_eq_add, accumulate_eq_add, accumulate_eq_add,
    clear_eq_zero, clear_eq_zero, clear_eq_zero, zero_add, zero_add, zero_add,
    inRangePart_sum_incParamDelta SQ11 SquareNum fe_end FVScale inverse S2 hS2,
    List.map_append, List.sum_append]

/-- Witness of C15 with `SQ11 = 0`, `SquareNum = 81`, `fe_end = 10`: a call on
`samplePosition` into the first store and a call on `symmetricPosition` into the second. -/
theorem C15_accumulate_then_merge_witness :
    (∀ call ∈ [(symmetricPosition, ((3 : ℚ), (4 : ℚ)))],
        call.1.inBounds 0 81 10 sampleInverse)
    ∧ opAddAssign 0 81 10 (accumulate 32 sampleInverse [(samplePosition, (1, 2))] (clear 0))
        (accumulate 32 sampleInverse [(symmetricPosition, (3, 4))] (clear 0))
      = accumulate 32 sampleInverse
          ([(samplePosition, (1, 2))] ++ [(symmetricPosition, (3, 4))]) (clear 0) := by
  have h : ∀ call ∈ [(symmetricPosition, ((3 : ℚ), (4 : ℚ)))],
      call.1.inBounds 0 81 10 sampleInverse := by
    intro call hcall
    rw [List.mem_singleton] at hcall
    subst hcall
    refine ⟨by decide, by decide, by decide, by decide, by decide, fun i _ => ?_⟩
    simp only [symmetricPosition]
    constructor <;> split_ifs <;> omega
  exact ⟨h, C15_accumulate_then_merge 0 81 10 32 sampleInverse _ _ 0 0 0 h⟩

/-! ## `atomicAdd`: one thread, and `N` threads under every interleaving -/

theorem atomicAddStep_threads_of_ne (diff : ℚ) (s : AtomicState) (t u : Nat) (sp : Bool)
    (hu : u ≠ t) : (atomicAddStep diff s t sp).threads u = s.threads u := by
  unfold atomicAddStep
  split
  · simp [Function.update_noteq hu]
  · split_ifs <;> simp [Function.update_noteq hu]
  · rfl

theorem atomicAddStep_finishes (diff : ℚ) (s : AtomicState) (t : Nat) :
    ((atomicAddStep diff (atomicAddStep diff s t false) t false).threads t).isDone = true := by
  cases h : s.threads t with
  | start =>
    have h1 : atomicAddStep diff s t false
        = { s with threads := Function.update s.threads t (ThreadState.loop s.x (s.x + diff)) } := by
      unfold atomicAddStep; rw [h]
    rw [h1]
    unfold atomicAddStep
    simp [ThreadState.isDone]
  | loop old desired =>
    by_cases hx : s.x = old
    · have h1 : atomicAddStep diff s t false
          = { x := desired, threads := Function.update s.threads t (ThreadState.done desired) } := by
        unfold atomicAddStep; rw [h]; simp [hx]
      rw [h1]
      unfold atomicAddStep
      simp [ThreadState.isDone]
    · have h1 : atomicAddStep diff s t false
          = { s with threads :=
                Function.update s.threads t (ThreadState.loop s.x (s.x + diff)) } := by
        unfold atomicAddStep; rw [h]; simp [hx]
      rw [h1]
      unfold atomicAddStep
      simp [ThreadState.isDone]
  | done ret =>
    have h1 : atomicAddStep diff s t false = s := by
      unfold atomicAddStep; rw [h]
    rw [h1, h1, h]
    rfl

theorem atomicAddStep_isDone_mono (diff : ℚ) (s : AtomicState) (t u : Nat) (sp : Bool)
    (hd : (s.threads u).isDone = true) :
    ((atomicAddStep diff s t sp).threads u).isDone = true := by
  by_cases hu : u = t
  · subst hu
    cases h : s.threads u with
    | start => rw [h] at hd; exact absurd hd (by simp [ThreadState.isDone])
    | loop old desired => rw [h] at hd; exact absurd hd (by simp [ThreadState.isDone])
    | done ret =>
      have h1 : atomicAddStep diff s u sp = s := by
        unfold atomicAddStep; rw [h]
      rw [h1, h]
      rfl
  · rw [atomicAddStep_threads_of_ne diff s t u sp hu]
    exact hd

theorem atomicAddRun_append (diff : ℚ) (N : Nat) (s : AtomicState)
    (l1 l2 : List (Nat × Bool)) :
    atomicAddRun diff N s (l1 ++ l2) = atomicAddRun diff N (atomicAddRun diff N s l1) l2 := by
  unfold atomicAddRun
  rw [List.foldl_append]

theorem sequentialSchedule_succ (n : Nat) :
    sequentialSchedule (n + 1) = sequentialSchedule n ++ [(n, false), (n, false)] := by
  unfold sequentialSchedule
  rw [List.range_succ, List.flatMap_append]
  simp

theorem atomicAddRun_sequential_done (diff : ℚ) (N : Nat) (s : AtomicState) (n : Nat)
    (hn : n ≤ N) :
    ∀ t, t < n → ((atomicAddRun diff N s (sequentialSchedule n)).threads t).isDone = true := by
  induction n with
  | zero => intro t ht; omega
  | succ n ih =>
    intro t ht
    have hnN : n < N := by omega
    rw [sequentialSchedule_succ, atomicAddRun_append]
    generalize hs' : atomicAddRun diff N s (sequentialSchedule n) = s'
    have ih' : ∀ u, u < n → ((s'.threads u).isDone = true) := by
      intro u hu
      rw [← hs']
      exact ih (by omega) u hu
    have hrun : atomicAddRun diff N s' [(n, false), (n, false)]
        = atomicAddStep diff (atomicAddStep diff s' n false) n false := by
      simp [atomicAddRun, hnN]
    rw [hrun]
    by_cases htn : t = n
    · subst htn
      exact atomicAddStep_finishes diff s' t
    · exact atomicAddStep_isDone_mono diff _ n t false
        (atomicAddStep_isDone_mono diff _ n t false (ih' t (by omega)))

theorem singleStep_inv (v diff : ℚ) (s : AtomicState) (sp : Bool) (hinv : SingleInv v diff s) :
    SingleInv v diff (atomicAddStep diff s 0 sp) := by
  obtain ⟨x, th⟩ := s
  unfold SingleInv at hinv ⊢
  cases h : th 0 with
  | start =>
    simp only [h] at hinv
    have h1 : atomicAddStep diff ⟨x, th⟩ 0 sp
        = ⟨x, Function.update th 0 (ThreadState.loop x (x + diff))⟩ := by
      unfold atomicAddStep
      simp only [h]
    rw [h1]
    simp only [Function.update_same]
    exact ⟨hinv, hinv, by rw [hinv]⟩
  | loop old desired =>
    simp only [h] at hinv
    obtain ⟨hx, ho, hd⟩ := hinv
    by_cases hc : x = old ∧ sp = false
    · have h1 : atomicAddStep diff ⟨x, th⟩ 0 sp
          = ⟨desired, Function.update th 0 (ThreadState.done desired)⟩ := by
        unfold atomicAddStep
        simp only [h, hc, and_self, if_true]
      rw [h1]
      simp only [Function.update_same]
      exact ⟨hd, hd⟩
    · have h1 : atomicAddStep diff ⟨x, th⟩ 0 sp
          = ⟨x, Function.update th 0 (ThreadState.loop x (x + diff))⟩ := by
        unfold atomicAddStep
        simp only [h, hc, if_false]
      rw [h1]
      simp only [Function.update_same]
      exact ⟨hx, hx, by rw [hx]⟩
  | done ret =>
    simp only [h] at hinv
    have h1 : atomicAddStep diff ⟨x, th⟩ 0 sp = ⟨x, th⟩ := by
      unfold atomicAddStep
      simp only [h]
    rw [h1]
    simp only [h]
    exact hinv

theorem singleRun_inv (v diff : ℚ) (sched : List (Nat × Bool)) (s : AtomicState)
    (hinv : SingleInv v diff s) : SingleInv v diff (atomicAddRun diff 1 s sched) := by
  induction sched generalizing s with
  | nil => exact hinv
  | cons e es ih =>
    unfold atomicAddRun
    rw [List.foldl_cons]
    by_cases he : e.1 < 1
    · rw [if_pos he]
      have h0 : e.1 = 0 := by omega
      rw [h0]
      exact ih _ (singleStep_inv v diff s e.2 hinv)
    · rw [if_neg he]
      exact ih _ hinv

theorem singleRun_done (v diff : ℚ) (sched : List (Nat × Bool)) (ret : ℚ)
    (h : (atomicAddRun diff 1 (atomicInit v) sched).threads 0 = ThreadState.done ret) :
    (atomicAddRun diff 1 (atomicInit v) sched).x = v + diff ∧ ret = v + diff := by
  have hinv := singleRun_inv v diff sched (atomicInit v) (by simp [SingleInv, atomicInit])
  unfold SingleInv at hinv
  rw [h] at hinv
  exact hinv

/-- C12 (atomic accumulator, one thread). For every cell value `v` and delta `d`,
`atomicAdd` leaves the cell holding `v + d` and returns `v + d`, `atomicSub` leaves the
cell holding `v - d` and returns `v - d`, and `atomicSub(x, d)` is `atomicAdd(x, -d)`;
the same holds step by step: whenever the single thread has returned, after any number of
spurious failures of the weak exchange, the cell holds `v + d` (for `atomicSub`, `v - d`)
and that is the value returned, and two further steps without spurious failure always
make the thread return. -/
theorem C12_atomic_single_thread (v d : ℚ) :
    atomicAdd v d = (v + d, v + d)
    ∧ atomicSub v d = (v - d, v - d)
    ∧ atomicSub v d = atomicAdd v (-d)
    ∧ (∀ (sched : List (Nat × Bool)) (ret : ℚ),
        (atomicAddRun d 1 (atomicInit v) sched).threads 0 = ThreadState.done ret →
        (atomicAddRun d 1 (atomicInit v) sched).x = v + d ∧ ret = v + d)
    ∧ (∀ (sched : List (Nat × Bool)) (ret : ℚ),
        (atomicAddRun (-d) 1 (atomicInit v) sched).threads 0 = ThreadState.done ret →
        (atomicAddRun (-d) 1 (atomicInit v) sched).x = v - d ∧ ret = v - d)
    ∧ (∀ sched : List (Nat × Bool),
        ((atomicAddRun d 1 (atomicInit v) (sched ++ sequentialSchedule 1)).threads 0).isDone
          = true) := by
  refine ⟨rfl, ?_, rfl, fun sched ret h => singleRun_done v d sched ret h,
    fun sched ret h => ?_, fun sched => ?_⟩
  · simp [atomicSub, atomicAdd, sub_eq_add_neg]
  · have := singleRun_done v (-d) sched ret h
    rw [sub_eq_add_neg]
    exact this
  · rw [atomicAddRun_append]
    exact atomicAddRun_sequential_done d 1 _ 1 (le_refl 1) 0 (by decide)

/-- Witness of C12: on a cell holding `5`, the thread loads, fails once spuriously, then
exchanges; it returns `7` and the cell holds `7`. -/
theorem C12_atomic_single_thread_witness :
    (atomicAddRun 2 1 (atomicInit 5) [(0, false), (0, true), (0, false)]).threads 0
        = ThreadState.done 7
    ∧ (atomicAddRun 2 1 (atomicInit 5) [(0, false), (0, true), (0, false)]).x = 5 + 2
    ∧ (7 : ℚ) = 5 + 2 := by
  have h : (atomicAddRun 2 1 (atomicInit 5) [(0, false), (0, true), (0, false)]).threads 0
      = ThreadState.done 7 := by
    simp [atomicAddRun, atomicAddStep, atomicInit]
    norm_num
  exact ⟨h, (C12_atomic_single_thread 5 2).2.2.2.1 _ 7 h⟩

/-! ## `atomicAdd` on a rounding cell: the invariant under every interleaving -/

theorem atomicAddStepWith_exact (diff : ℚ) (s : AtomicState) (t : Nat) (sp : Bool) :
    atomicAddStepWith (fun a b => a + b) diff s t sp = atomicAddStep diff s t sp := rfl

theorem atomicAddRunWith_exact (diff : ℚ) (N : Nat) (s : AtomicState)
    (sched : List (Nat × Bool)) :
    atomicAddRunWith (fun a b => a + b) diff N s sched = atomicAddRun diff N s sched := rfl

theorem atomicAddStepWith_threads_of_ne (add : ℚ → ℚ → ℚ) (diff : ℚ) (s : AtomicState)
    (t u : Nat) (sp : Bool) (hu : u ≠ t) :
    (atomicAddStepWith add diff s t sp).threads u = s.threads u := by
  unfold atomicAddStepWith
  split
  · simp [Function.update_noteq hu]
  · split_ifs <;> simp [Function.update_noteq hu]
  · rfl

theorem atomicAddStepWith_finishes (add : ℚ → ℚ → ℚ) (diff : ℚ) (s : AtomicState) (t : Nat) :
    ((atomicAddStepWith add diff (atomicAddStepWith add diff s t false) t false).threads
      t).isDone = true := by
  cases h : s.threads t with
  | start =>
    have h1 : atomicAddStepWith add diff s t false
        = { s with threads :=
              Function.update s.threads t (ThreadState.loop s.x (add s.x diff)) } := by
      unfold atomicAddStepWith; rw [h]
    rw [h1]
    unfold atomicAddStepWith
    simp [ThreadState.isDone]
  | loop old desired =>
    by_cases hx : s.x = old
    · have h1 : atomicAddStepWith add diff s t false
          = { x := desired,
              threads := Function.update s.threads t (ThreadState.done desired) } := by
        unfold atomicAddStepWith; rw [h]; simp [hx]
      rw [h1]
      unfold atomicAddStepWith
      simp [ThreadState.isDone]
    · have h1 : atomicAddStepWith add diff s t false
          = { s with threads :=
                Function.update s.threads t (ThreadState.loop s.x (add s.x diff)) } := by
        unfold atomicAddStepWith; rw [h]; simp [hx]
      rw [h1]
      unfold atomicAddStepWith
      simp [ThreadState.isDone]
  | done ret =>
    have h1 : atomicAddStepWith add diff s t false = s := by
      unfold atomicAddStepWith; rw [h]
    rw [h1, h1, h]
    rfl

theorem atomicAddStepWith_isDone_mono (add : ℚ → ℚ → ℚ) (diff : ℚ) (s : AtomicState)
    (t u : Nat) (sp : Bool) (hd : (s.threads u).isDone = true) :
    ((atomicAddStepWith add diff s t sp).threads u).isDone = true := by
  by_cases hu : u = t
  · subst hu
    cases h : s.threads u with
    | start => rw [h] at hd; exact absurd hd (by simp [ThreadState.isDone])
    | loop old desired => rw [h] at hd; exact absurd hd (by simp [ThreadState.isDone])
    | done ret =>
      have h1 : atomicAddStepWith add diff s u sp = s := by
        unfold atomicAddStepWith; rw [h]
      rw [h1, h]
      rfl
  · rw [atomicAddStepWith_threads_of_ne add diff s t u sp hu]
    exact hd

theorem atomicAddRunWith_append (add : ℚ → ℚ → ℚ) (diff : ℚ) (N : Nat) (s : AtomicState)
    (l1 l2 : List (Nat × Bool)) :
    atomicAddRunWith add diff N s (l1 ++ l2)
      = atomicAddRunWith add diff N (atomicAddRunWith add diff N s l1) l2 := by
  unfold atomicAddRunWith
  rw [List.foldl_append]

theorem atomicAddRunWith_sequential_done (add : ℚ → ℚ → ℚ) (diff : ℚ) (N : Nat)
    (s : AtomicState) (n : Nat) (hn : n ≤ N) :
    ∀ t, t < n →
      ((atomicAddRunWith add diff N s (sequentialSchedule n)).threads t).isDone = true := by
  induction n with
  | zero => intro t ht; omega
  | succ n ih =>
    intro t ht
    have hnN : n < N := by omega
    rw [sequentialSchedule_succ, atomicAddRunWith_append]
    generalize hs' : atomicAddRunWith add diff N s (sequentialSchedule n) = s'
    have ih' : ∀ u, u < n → ((s'.threads u).isDone = true) := by
      intro u hu
      rw [← hs']
      exact ih (by omega) u hu
    have hrun : atomicAddRunWith add diff N s' [(n, false), (n, false)]
        = atomicAddStepWith add diff (atomicAddStepWith add diff s' n false) n false := by
      simp [atomicAddRunWith, hnN]
    rw [hrun]
    by_cases htn : t = n
    · subst htn
      exact atomicAddStepWith_finishes add diff s' t
    · exact atomicAddStepWith_isDone_mono add diff _ n t false
        (atomicAddStepWith_isDone_mono add diff _ n t false (ih' t (by omega)))

theorem doneCount_update (N : Nat) (x x' : ℚ) (th : Nat → ThreadState) (t : Nat)
    (new : ThreadState) (ht : t < N) :
    doneCount N { x := x', threads := Function.update th t new }
      + (if (th t).isDone then 1 else 0)
      = doneCount N { x := x, threads := th } + (if new.isDone then 1 else 0) := by
  unfold doneCount
  have hmem : t ∈ Finset.range N := Finset.mem_range.2 ht
  rw [← Finset.add_sum_erase _ _ hmem,
    ← Finset.add_sum_erase (Finset.range N) (fun u => if (th u).isDone then 1 else 0) hmem]
  have hrest : ∑ u ∈ (Finset.range N).erase t,
      (if ((Function.update th t new) u).isDone then 1 else 0)
      = ∑ u ∈ (Finset.range N).erase t, (if (th u).isDone then 1 else 0) := by
    refine Finset.sum_congr rfl (fun u hu => ?_)
    rw [Function.update_noteq (Finset.ne_of_mem_erase hu)]
  simp only [Function.update_same, hrest]
  omega

theorem atomicAddStepWith_inv (add : ℚ → ℚ → ℚ) (v diff : ℚ) (N : Nat) (s : AtomicState)
    (t : Nat) (sp : Bool) (ht : t < N) (hinv : AtomicInvWith add v diff N s) :
    AtomicInvWith add v diff N (atomicAddStepWith add diff s t sp) := by
  obtain ⟨hloop, hx⟩ := hinv
  obtain ⟨x, th⟩ := s
  simp only at hloop hx
  have hupd : ∀ new : ThreadState, (∀ old desired, new = ThreadState.loop old desired →
      desired = add old diff) → ∀ u old desired,
      Function.update th t new u = ThreadState.loop old desired → desired = add old diff := by
    intro new hnew u old desired hu
    by_cases hut : u = t
    · subst hut
      rw [Function.update_same] at hu
      exact hnew old desired hu
    · rw [Function.update_noteq hut] at hu
      exact hloop u old desired hu
  cases h : th t with
  | start =>
    have h1 : atomicAddStepWith add diff ⟨x, th⟩ t sp
        = ⟨x, Function.update th t (ThreadState.loop x (add x diff))⟩ := by
      unfold atomicAddStepWith
      simp only [h]
    rw [h1]
    refine ⟨hupd _ (fun old desired e => ?_), ?_⟩
    · injection e with e1 e2
      rw [← e1, ← e2]
    · have := doneCount_update N x x th t (ThreadState.loop x (add x diff)) ht
      simp only [h, ThreadState.isDone, Bool.false_eq_true, if_false, add_zero] at this
      show x = _
      rw [this]
      exact hx
  | loop old desired =>
    have hd : desired = add old diff := hloop t old desired h
    by_cases hc : x = old ∧ sp = false
    · have h1 : atomicAddStepWith add diff ⟨x, th⟩ t sp
          = ⟨desired, Function.update th t (ThreadState.done desired)⟩ := by
        unfold atomicAddStepWith
        simp only [h, hc, and_self, if_true]
      rw [h1]
      refine ⟨hupd _ (fun old desired e => ?_), ?_⟩
      · exact ThreadState.noConfusion e
      · have := doneCount_update N x desired th t (ThreadState.done desired) ht
        simp only [h, ThreadState.isDone, Bool.false_eq_true, if_false, add_zero,
          if_true] at this
        show desired = _
        rw [this, Function.iterate_succ_apply', ← hx, hd, hc.1]
    · have h1 : atomicAddStepWith add diff ⟨x, th⟩ t sp
          = ⟨x, Function.update th t (ThreadState.loop x (add x diff))⟩ := by
        unfold atomicAddStepWith
        simp only [h, hc, if_false]
      rw [h1]
      refine ⟨hupd _ (fun old desired e => ?_), ?_⟩
      · injection e with e1 e2
        rw [← e1, ← e2]
      · have := doneCount_update N x x th t (ThreadState.loop x (add x diff)) ht
        simp only [h, ThreadState.isDone, Bool.false_eq_true, if_false, add_zero] at this
        show x = _
        rw [this]
        exact hx
  | done ret =>
    have h1 : atomicAddStepWith add diff ⟨x, th⟩ t sp = ⟨x, th⟩ := by
      unfold atomicAddStepWith
      simp only [h]
    rw [h1]
    exact ⟨hloop, hx⟩

theorem atomicAddRunWith_inv (add : ℚ → ℚ → ℚ) (v diff : ℚ) (N : Nat)
    (sched : List (Nat × Bool)) (s : AtomicState) (hinv : AtomicInvWith add v diff N s) :
    AtomicInvWith add v diff N (atomicAddRunWith add diff N s sched) := by
  induction sched generalizing s with
  | nil => exact hinv
  | cons e es ih =>
    unfold atomicAddRunWith
    rw [List.foldl_cons]
    by_cases he : e.1 < N
    · rw [if_pos he]
      exact ih _ (atomicAddStepWith_inv add v diff N s e.1 e.2 he hinv)
    · rw [if_neg he]
      exact ih _ hinv

theorem atomicInit_invWith (add : ℚ → ℚ → ℚ) (v diff : ℚ) (N : Nat) :
    AtomicInvWith add v diff N (atomicInit v) := by
  refine ⟨fun t old desired h => ?_, ?_⟩
  · exact ThreadState.noConfusion h
  · simp [atomicInit, doneCount, ThreadState.isDone]

theorem doneCount_eq_card (N : Nat) (s : AtomicState) :
    doneCount N s
      = ((Finset.range N).filter (fun t => (s.threads t).isDone = true)).card := by
  unfold doneCount
  rw [Finset.card_filter]

theorem doneCount_all (N : Nat) (s : AtomicState)
    (hall : ∀ t, t < N → (s.threads t).isDone = true) : doneCount N s = N := by
  rw [doneCount_eq_card, Finset.filter_true_of_mem (fun t ht => hall t (Finset.mem_range.1 ht)),
    Finset.card_range]

theorem iterate_add_exact (D v : ℚ) (n : Nat) : (fun c : ℚ => c + D)^[n] v = v + n * D := by
  induction n with
  | zero => simp
  | succ n ih =>
    rw [Function.iterate_succ_apply', ih]
    push_cast
    ring

/-! ## Evaluating the addition of `double` -/

theorem roundDouble_of_pos (q : ℚ) (n d m : Nat) (e : Int) (hq : q = (n : ℚ) / d) (hn : 0 < n)
    (hd : 0 < d) (hcop : Nat.Coprime n d) (hcore : roundDoubleCore n d = (m, e)) :
    roundDouble q = (m : ℚ) * 2 ^ e := by
  have hq' : q = ((n : Int) : ℚ) / ((d : Int) : ℚ) := by
    rw [hq]
    push_cast
    rfl
  have hdpos : (0 : Int) < (d : Int) := by exact_mod_cast hd
  have hcop' : Nat.Coprime (n : Int).natAbs (d : Int).natAbs := by simpa using hcop
  have hnum : q.num = (n : Int) := by
    rw [hq']
    exact Rat.num_div_eq_of_coprime hdpos hcop'
  have hden : q.den = d := by
    have h := Rat.den_div_eq_of_coprime hdpos hcop'
    rw [← hq'] at h
    exact_mod_cast h
  have hpos : 0 < q := by
    rw [hq]
    positivity
  unfold roundDouble
  rw [if_neg (ne_of_gt hpos), if_pos hpos, hnum, hden]
  simp only [Int.natAbs_ofNat, hcore]

theorem doubleAdd_tenth_ten_times :
    (fun c : ℚ => doubleAdd c (3602879701896397 / 36028797018963968))^[10] 0
      = 9007199254740991 / 9007199254740992 := by
  have h1 : doubleAdd (0) (3602879701896397 / 36028797018963968) = 3602879701896397 / 36028797018963968 := by
    unfold doubleAdd
    rw [roundDouble_of_pos _ 3602879701896397 36028797018963968 7205759403792794 (-56)
      (by norm_num) (by norm_num) (by norm_num) (by norm_num) (by decide)]
    norm_num
  have h2 : doubleAdd (3602879701896397 / 36028797018963968) (3602879701896397 / 36028797018963968) = 3602879701896397 / 18014398509481984 := by
    unfold doubleAdd
    rw [roundDouble_of_pos _ 3602879701896397 18014398509481984 7205759403792794 (-55)
      (by norm_num) (by norm_num) (by norm_num) (by norm_num) (by decide)]
    norm_num
  have h3 : doubleAdd (3602879701896397 / 18014398509481984) (3602879701896397 / 36028797018963968) = 1351079888211149 / 4503599627370496 := by
    unfold doubleAdd
    rw [roundDouble_of_pos _ 10808639105689191 36028797018963968 5404319552844596 (-54)
      (by norm_num) (by norm_num) (by norm_num) (by norm_num) (by decide)]
    norm_num
  have h4 : doubleAdd (1351079888211149 / 4503599627370496) (3602879701896397 / 36028797018963968) = 3602879701896397 / 9007199254740992 := by
    unfold doubleAdd
    rw [roundDouble_of_pos _ 14411518807585589 36028797018963968 7205759403792794 (-54)
      (by norm_num) (by norm_num) (by norm_num) (by norm_num) (by decide)]
    norm_num
  have h5 : doubleAdd (3602879701896397 / 9007199254740992) (3602879701896397 / 36028797018963968) = 1 / 2 := by
    unfold doubleAdd
    rw [roundDouble_of_pos _ 18014398509481985 36028797018963968 4503599627370496 (-53)
      (by norm_num) (by norm_num) (by norm_num) (by norm_num) (by decide)]
    norm_num
  have h6 : doubleAdd (1 / 2) (3602879701896397 / 36028797018963968) = 5404319552844595 / 9007199254740992 := by
    unfold doubleAdd
    rw [roundDouble_of_pos _ 21617278211378381 36028797018963968 5404319552844595 (-53)
      (by norm_num) (by norm_num) (by norm_num) (by norm_num) (by decide)]
    norm_num
  have h7 : doubleAdd (5404319552844595 / 9007199254740992) (3602879701896397 / 36028797018963968) = 3152519739159347 / 4503599627370496 := by
    unfold doubleAdd
    rw [roundDouble_of_pos _ 25220157913274777 36028797018963968 6305039478318694 (-53)
      (by norm_num) (by norm_num) (by norm_num) (by norm_num) (by decide)]
    norm_num
  have h8 : doubleAdd (3152519739159347 / 4503599627370496) (3602879701896397 / 36028797018963968) = 7205759403792793 / 9007199254740992 := by
    unfold doubleAdd
    rw [roundDouble_of_pos _ 28823037615171173 36028797018963968 7205759403792793 (-53)
      (by norm_num) (by norm_num) (by norm_num) (by norm_num) (by decide)]
    norm_num
  have h9 : doubleAdd (7205759403792793 / 9007199254740992) (3602879701896397 / 36028797018963968) = 2026619832316723 / 2251799813685248 := by
    unfold doubleAdd
    rw [roundDouble_of_pos _ 32425917317067569 36028797018963968 8106479329266892 (-53)
      (by norm_num) (by norm_num) (by norm_num) (by norm_num) (by decide)]
    norm_num
  have h10 : doubleAdd (2026619832316723 / 2251799813685248) (3602879701896397 / 36028797018963968) = 9007199254740991 / 9007199254740992 := by
    unfold doubleAdd
    rw [roundDouble_of_pos _ 36028797018963965 36028797018963968 9007199254740991 (-53)
      (by norm_num) (by norm_num) (by norm_num) (by norm_num) (by decide)]
    norm_num
  simp only [Function.iterate_succ, Function.iterate_zero, Function.comp, id]
  rw [h1, h2, h3, h4, h5, h6, h7, h8, h9, h10]

/-- C13, as stated, fails on `double`: ten threads each adding `0.1` (the `double`
`3602879701896397 / 2 ^ 55`) to a cell holding `0`, running one after the other, all
return and leave the cell holding `0.9999999999999999 = (2 ^ 53 - 1) / 2 ^ 53`, which is
neither the exact product `10 * 0.1` nor its `double` rounding `1`. -/
theorem C13_counterexample :
    roundDouble (1 / 10) = 3602879701896397 / 36028797018963968
    ∧ (∀ t, t < 10 →
        ((atomicAddRunWith doubleAdd (3602879701896397 / 36028797018963968) 10 (atomicInit 0)
          (sequentialSchedule 10)).threads t).isDone = true)
    ∧ (atomicAddRunWith doubleAdd (3602879701896397 / 36028797018963968) 10 (atomicInit 0)
          (sequentialSchedule 10)).x = 9007199254740991 / 9007199254740992
    ∧ (atomicAddRunWith doubleAdd (3602879701896397 / 36028797018963968) 10 (atomicInit 0)
          (sequentialSchedule 10)).x ≠ 10 * (3602879701896397 / 36028797018963968)
    ∧ roundDouble (10 * (3602879701896397 / 36028797018963968)) = 1
    ∧ (atomicAddRunWith doubleAdd (3602879701896397 / 36028797018963968) 10 (atomicInit 0)
          (sequentialSchedule 10)).x ≠ 1 := by
  have hdone := atomicAddRunWith_sequential_done doubleAdd
    (3602879701896397 / 36028797018963968) 10 (atomicInit 0) 10 (le_refl 10)
  have hx : (atomicAddRunWith doubleAdd (3602879701896397 / 36028797018963968) 10
      (atomicInit 0) (sequentialSchedule 10)).x = 9007199254740991 / 9007199254740992 := by
    have h := (atomicAddRunWith_inv doubleAdd 0 (3602879701896397 / 36028797018963968) 10
      (sequentialSchedule 10) (atomicInit 0) (atomicInit_invWith _ _ _ _)).2
    rw [h, doneCount_all 10 _ hdone, doubleAdd_tenth_ten_times]
  refine ⟨?_, hdone, hx, ?_, ?_, ?_⟩
  · rw [roundDouble_of_pos (1 / 10) 1 10 7205759403792794 (-56)
      (by norm_num) (by norm_num) (by norm_num) (by norm_num) (by decide)]
    norm_num
  · rw [hx]
    norm_num
  · rw [roundDouble_of_pos _ 18014398509481985 18014398509481984 4503599627370496 (-52)
      (by norm_num) (by norm_num) (by norm_num) (by norm_num) (by decide)]
    norm_num
  · rw [hx]
    norm_num

/-- C13, amended. For `N` threads each calling `atomicAdd` once with `D` on a cell
initially holding `0`, whatever addition `add` the cell's type has, under every schedule
of their load and compare-and-swap steps (spurious failures of the weak exchange
included): at every moment the cell holds `0` with `D` added once for every thread that
has returned; when all `N` threads have returned it holds the `N`-fold sum
`((0 + D) + D) + ... + D`; every schedule can be completed, letting the threads finish
one after the other; and with exact addition the `N`-fold sum is `N * D`. -/
theorem C13_atomic_total_of_additions (add : ℚ → ℚ → ℚ) (N : Nat) (D : ℚ) :
    (∀ sched : List (Nat × Bool),
        (atomicAddRunWith add D N (atomicInit 0) sched).x
          = (fun c => add c D)^[((Finset.range N).filter (fun t =>
              ((atomicAddRunWith add D N (atomicInit 0) sched).threads t).isDone
                = true)).card] 0)
    ∧ (∀ sched : List (Nat × Bool),
        (∀ t, t < N →
          ((atomicAddRunWith add D N (atomicInit 0) sched).threads t).isDone = true) →
        (atomicAddRunWith add D N (atomicInit 0) sched).x = (fun c => add c D)^[N] 0)
    ∧ (∀ (sched : List (Nat × Bool)) (t : Nat), t < N →
        ((atomicAddRunWith add D N (atomicInit 0)
          (sched ++ sequentialSchedule N)).threads t).isDone = true)
    ∧ (fun c : ℚ => c + D)^[N] 0 = N * D := by
  refine ⟨fun sched => ?_, fun sched hall => ?_, fun sched t ht => ?_, ?_⟩
  · have h := (atomicAddRunWith_inv add 0 D N sched (atomicInit 0)
      (atomicInit_invWith add 0 D N)).2
    rw [h, doneCount_eq_card]
  · have h := (atomicAddRunWith_inv add 0 D N sched (atomicInit 0)
      (atomicInit_invWith add 0 D N)).2
    rw [h, doneCount_all N _ hall]
  · rw [atomicAddRunWith_append]
    exact atomicAddRunWith_sequential_done add D N _ N (le_refl N) t ht
  · rw [iterate_add_exact, zero_add]

/-- Witness of the amended C13 with exact addition: two threads adding `3`; both load `0`,
thread 0 exchanges, thread 1 fails its exchange, reloads `3` and exchanges; the cell holds
`(0 + 3) + 3`. -/
theorem C13_atomic_total_of_additions_witness :
    (∀ t, t < 2 →
        ((atomicAddRunWith (fun a b => a + b) 3 2 (atomicInit 0)
          [(0, false), (1, false), (0, false), (1, false), (1, false)]).threads t).isDone = true)
    ∧ (atomicAddRunWith (fun a b => a + b) 3 2 (atomicInit 0)
          [(0, false), (1, false), (0, false), (1, false), (1, false)]).x
        = (fun c : ℚ => c + 3)^[2] 0 := by
  have h : ∀ t, t < 2 →
      ((atomicAddRunWith (fun a b => a + b) 3 2 (atomicInit 0)
        [(0, false), (1, false), (0, false), (1, false), (1, false)]).threads t).isDone
        = true := by
    intro t ht
    interval_cases t <;>
      simp [atomicAddRunWith, atomicAddStepWith, atomicInit, Function.update,
        ThreadState.isDone]
  exact ⟨h, (C13_atomic_total_of_additions (fun a b => a + b) 2 3).2.1 _ h⟩

end Learner
